import Mathlib

set_option maxHeartbeats 1000000

/-!
Verification of the PDF-to-Markdown conversion scripts
(`advanced_pdf_to_markdown.py`, `pdf_to_markdown.py`, `convert_pdf.py`).

Strings are modelled as `List Char` (Python strings are sequences of code
points).  The regular-expression substitutions and `str` methods used by the
scripts are embedded as executable functions below; each definition's doc
comment names the source construct it models.  Character classes (`\s`,
`\d`, `str.strip`, `str.upper`, `str.isupper`) are modelled over their ASCII
behaviour, which agrees with Python on every character class the scripts and
the claims exercise (ASCII plus uncased CJK characters).
-/

/-- The character class of the regex `[ \t]` in `clean_text` of
`advanced_pdf_to_markdown.py` (horizontal whitespace). -/
def isHT (c : Char) : Bool := c == ' ' || c == '\t'

/-- ASCII whitespace: the regex class `\s` and the characters removed by
Python `str.strip()`. -/
def isPyWS (c : Char) : Bool :=
  c == ' ' || c == '\t' || c == '\n' || c == '\r' || c == '\x0b' || c == '\x0c'

/-- Models `re.sub(r'[ \t]+', ' ', text)` (with `p := isHT`) and
`re.sub(r'\s+', ' ', text)` (with `p := isPyWS`): every maximal run of
characters satisfying `p` is replaced by one single space. -/
def collapseRuns (p : Char → Bool) : List Char → List Char
  | [] => []
  | [c] => if p c then [' '] else [c]
  | c :: d :: rest =>
      if p c && p d then collapseRuns p (d :: rest)
      else (if p c then ' ' else c) :: collapseRuns p (d :: rest)

/-- Python `str.lstrip()` restricted to the string's ASCII whitespace. -/
def lstrip (l : List Char) : List Char := l.dropWhile isPyWS

/-- Python `str.rstrip()`: drop the maximal whitespace suffix. -/
def rstrip (l : List Char) : List Char := List.rdropWhile isPyWS l

/-- Python `str.strip()`: whitespace removed from both ends. -/
def pstrip (l : List Char) : List Char := rstrip (lstrip l)

/-- The part of a whitespace run after its last newline (used to resume the
regex scan after a `\n\s*\n` match, whose greedy `\s*` ends at the run's
last newline). -/
def afterLastNl (w : List Char) : List Char :=
  (w.reverse.takeWhile (fun c => !(c == '\n'))).reverse

/-- Fuel-indexed scan of `re.sub(r'\n\s*\n', '\n\n', text)`: at a newline
followed (within the maximal whitespace run) by another newline, the match
extends through the run's last newline and is replaced by two newlines; the
scan resumes after the match.  The fuel is an upper bound on the input
length; every step strictly consumes input, so `subNl` below always supplies
enough fuel. -/
def subNlGo : Nat → List Char → List Char
  | _, [] => []
  | 0, l => l
  | fuel + 1, c :: cs =>
    if c = '\n' ∧ '\n' ∈ cs.takeWhile isPyWS then
      '\n' :: '\n' ::
        subNlGo fuel (afterLastNl (cs.takeWhile isPyWS) ++ cs.dropWhile isPyWS)
    else c :: subNlGo fuel cs

/-- `re.sub(r'\n\s*\n', '\n\n', text)` from `clean_text` of
`advanced_pdf_to_markdown.py`. -/
def subNl (l : List Char) : List Char := subNlGo l.length l

/-- Python `str.replace(a, rep)` for a one-character needle `a`. -/
def replaceChar (a : Char) (rep : List Char) (l : List Char) : List Char :=
  l.flatMap (fun c => if c == a then rep else [c])

def ampEnt : List Char := ['&', 'a', 'm', 'p', ';']
def ltEnt : List Char := ['&', 'l', 't', ';']
def gtEnt : List Char := ['&', 'g', 't', ';']

/-- The three `str.replace` lines shared by both `clean_text` variants:
`&` is replaced first, then `<`, then `>`. -/
def escapeSpecials (l : List Char) : List Char :=
  replaceChar '>' gtEnt (replaceChar '<' ltEnt (replaceChar '&' ampEnt l))

/-- `clean_text` of `advanced_pdf_to_markdown.py` (lines 13-27): falsy input
(`None` or the empty string) yields the empty string; otherwise collapse
horizontal whitespace runs, collapse `\n\s*\n` to a blank line, escape
`&`, `<`, `>`, and strip. -/
def clean_text_advanced : Option (List Char) → List Char
  | none => []
  | some t =>
    if t.isEmpty then []
    else pstrip (escapeSpecials (subNl (collapseRuns isHT t)))

/-- `clean_text` of `pdf_to_markdown.py` (lines 13-26): falsy input yields
the empty string; otherwise strip, collapse every whitespace run (including
newlines) to one space, and escape `&`, `<`, `>`. -/
def clean_text_basic : Option (List Char) → List Char
  | none => []
  | some t =>
    if t.isEmpty then []
    else escapeSpecials (collapseRuns isPyWS (pstrip t))

example : clean_text_advanced (some (("a \t b").toList)) = ("a b").toList := by decide
example : clean_text_advanced (some (("a\n\n\n\nb").toList)) = ("a\n\nb").toList := by
  decide
example : clean_text_advanced (some (("  x < y & z  ").toList)) =
    ("x &lt; y &amp; z").toList := by decide
example : clean_text_basic (some (("a\n\n\nb").toList)) = ("a b").toList := by decide

/-- C1 counterexample: `normalize_text` is not idempotent.  On the input
`"&"` both `clean_text` variants return `"&amp;"`, and a second application
escapes the ampersand of the entity again, giving `"&amp;amp;"`. -/
theorem c1_counterexample :
    clean_text_advanced (some (("&").toList)) = ("&amp;").toList ∧
    clean_text_advanced (some (clean_text_advanced (some (("&").toList)))) ≠
      clean_text_advanced (some (("&").toList)) ∧
    clean_text_basic (some (clean_text_basic (some (("&").toList)))) ≠
      clean_text_basic (some (("&").toList)) := by decide

/-- A table cell as produced by the PDF library: a string or `None`. -/
abbrev Cell := Option (List Char)

/-- Python truthiness of a cell: `None` and the empty string are falsy. -/
def cellTruthy : Cell → Bool
  | none => false
  | some s => !s.isEmpty

/-- `any(cell for cell in row if cell)`: the row has some truthy cell. -/
def rowTruthy (row : List Cell) : Bool := row.any cellTruthy

/-- `str(cell) if cell else ""`: a falsy cell (absent or empty) renders as
the empty string, a truthy cell as its own text. -/
def cellStr : Cell → List Char
  | none => []
  | some s => s

/-- Python `sep.join(xs)`. -/
def joinSep (sep : List Char) (xs : List (List Char)) : List Char :=
  (xs.intersperse sep).flatten

/-- One rendered table row: `"| " + " | ".join(cells) + " |"`. -/
def rowLine (row : List Cell) : List Char :=
  ("| ").toList ++ joinSep ((" | ").toList) (row.map cellStr) ++ (" |").toList

/-- The separator row: one `---` per cell of the header row. -/
def sepLine (hdr : List Cell) : List Char :=
  ("| ").toList ++ joinSep ((" | ").toList) (hdr.map (fun _ => ("---").toList)) ++
    (" |").toList

/-- `format_table` of `advanced_pdf_to_markdown.py` (lines 53-82): drop the
table if it has no truthy cell, filter out rows without a truthy cell,
render the first surviving row as header, a separator, then the remaining
rows, joined by newlines. -/
def format_table (table_data : List (List Cell)) : List Char :=
  if table_data.isEmpty || !table_data.any rowTruthy then []
  else
    match table_data.filter rowTruthy with
    | [] => []
    | hdr :: rows =>
      joinSep (("\n").toList) (rowLine hdr :: sepLine hdr :: rows.map rowLine)

/-- Python `str.upper` on one character, modelled over ASCII (identity on
uncased characters such as the CJK keywords below). -/
def upperChar (c : Char) : Char := c.toUpper

/-- The fixed keyword list of `detect_heading`. -/
def headingKeywords : List (List Char) :=
  [("规格").toList, ("参数").toList, ("技术").toList, ("尺寸").toList,
   ("说明").toList, ("要求").toList, ("标准").toList, ("型号").toList,
   ("名称").toList]

/-- `re.match(r'^\d+\.?\s+[A-Z]', t)` as a Boolean: one or more digits, an
optional dot, one or more whitespace characters, then an ASCII capital
letter.  Every quantifier here is deterministic (backtracking can never turn
a failure into a match), so greedy maximal munch is exact. -/
def matchNumHeading (t : List Char) : Bool :=
  if (t.takeWhile Char.isDigit).isEmpty then false
  else
    let r1 := t.dropWhile Char.isDigit
    let r2 := match r1 with
      | '.' :: rest => rest
      | _ => r1
    if (r2.takeWhile isPyWS).isEmpty then false
    else
      match r2.dropWhile isPyWS with
      | c :: _ => decide ('A' ≤ c ∧ c ≤ 'Z')
      | [] => false

/-- The Python substring operator `needle in hay`. -/
def containsSeg (needle : List Char) : List Char → Bool
  | [] => needle.isEmpty
  | c :: rest => needle.isPrefixOf (c :: rest) || containsSeg needle rest

/-- `detect_heading` of `advanced_pdf_to_markdown.py` (lines 29-51). -/
def detect_heading (text : List Char) : Bool :=
  if text.isEmpty || decide ((pstrip text).length < 2) then false
  else if ((pstrip text).map upperChar == pstrip text) &&
      decide ((pstrip text).length < 50) then true
  else if matchNumHeading (pstrip text) then true
  else if headingKeywords.any (fun k => containsSeg k text) then true
  else false

/-- Python `str.isupper` (ASCII-cased model): some cased character exists
and no cased character is lower case. -/
def pyIsUpper (l : List Char) : Bool :=
  l.any (fun c => c.isLower || c.isUpper) && l.all (fun c => !c.isLower)

/-- The inline heading test of `pdf_to_markdown.py` (line 54):
`len(paragraph.strip()) < 100 and paragraph.strip().isupper()`. -/
def basicHeadingCheck (p : List Char) : Bool :=
  decide ((pstrip p).length < 100) && pyIsUpper (pstrip p)

/-- The per-table markdown block of `pdf_to_markdown.py` (lines 62-71): the
guard `if table and any(...)`, a fixed heading, the first row as header, a
separator, then every remaining row without any row filtering, each line
ending in a newline, and a final blank line. -/
def basicTableEntry : List (List Cell) → List Char
  | [] => []
  | hdr :: rows =>
    if (hdr :: rows).any rowTruthy then
      ("### 表格数据\n\n").toList ++
      rowLine hdr ++ ("\n").toList ++
      sepLine hdr ++ ("\n").toList ++
      (rows.map (fun r => rowLine r ++ ("\n").toList)).flatten ++
      ("\n").toList
    else []

/-- The per-table markdown block of `advanced_pdf_to_markdown.py`
(lines 117-124): guard, an indexed heading (1-based), then the
`format_table` output followed by a blank line when it is non-empty. -/
def advTableEntry (i : Nat) (t : List (List Cell)) : List Char :=
  if !t.isEmpty && t.any rowTruthy then
    ("### 表格 ").toList ++ (Nat.repr (i + 1)).toList ++ ("\n\n").toList ++
    (if !(format_table t).isEmpty then format_table t ++ ("\n\n").toList else [])
  else []

/-- The table [["A","B"],["",""],["1","2"]] of the claims. -/
def exTable : List (List Cell) :=
  [[some (("A").toList), some (("B").toList)],
   [some (("").toList), some (("").toList)],
   [some (("1").toList), some (("2").toList)]]

/-- C3 counterexample: in `pdf_to_markdown.py` the all-empty row of the
table [["A","B"],["",""],["1","2"]] is NOT filtered out before rendering:
the inline table renderer emits it as the empty data row between the
separator and the row `| 1 | 2 |`. -/
theorem c3_counterexample :
    basicTableEntry exTable =
      ("### 表格数据\n\n| A | B |\n| --- | --- |\n|  |  |\n| 1 | 2 |\n\n").toList ∧
    containsSeg (("|  |  |").toList) (basicTableEntry exTable) = true := by decide

/-- C3 amended: `format_table` (the advanced variant's `render_table`)
applied to [["A","B"],["",""],["1","2"]] produces exactly the header row
`| A | B |`, the separator `| --- | --- |` and the single data row
`| 1 | 2 |`, the all-empty row being filtered out; the basic variant's
inline renderer instead keeps the all-empty row as an empty data row. -/
theorem c3_amended :
    format_table exTable = ("| A | B |\n| --- | --- |\n| 1 | 2 |").toList := by
  decide

/-- C9: `detect_heading` rejects every string whose trimmed form is shorter
than two characters, even all-caps ones such as "A". -/
theorem c9_short_not_heading (t : List Char) (h : (pstrip t).length < 2) :
    detect_heading t = false := by
  unfold detect_heading
  simp [h]

/-- C9 witness: the single character "A" trims to length 1 and is rejected. -/
theorem c9_witness :
    (pstrip (("A").toList)).length < 2 ∧ detect_heading (("A").toList) = false :=
  ⟨by decide, c9_short_not_heading (("A").toList) (by decide)⟩

/-- C4 counterexample: the claimed characterization of `is_heading` fails on
both variants.  On "A" the advanced `detect_heading` returns false although
the trimmed text upper-cases to itself and its length is below the
threshold; and the basic variant's inline heading test rejects "规格"
although the claim asserts `is_heading("规格")` is true. -/
theorem c4_counterexample :
    detect_heading (("A").toList) = false ∧
    ((pstrip (("A").toList)).map upperChar = pstrip (("A").toList) ∧
      (pstrip (("A").toList)).length < 50) ∧
    detect_heading (("规格").toList) = true ∧
    basicHeadingCheck (("规格").toList) = false := by decide

/-- C4 amended: for the advanced heuristic `detect_heading`,
`is_heading("规格")` is true and the long lowercase sentence is rejected;
and in general `detect_heading` returns true exactly when the trimmed text
has length at least 2 AND (the trimmed text upper-cased equals itself with
length under 50, or the number-followed-by-capital pattern matches, or the
text contains one of the fixed domain keywords).  (The basic variant uses a
different test: `isupper()` with threshold 100 and no pattern or keyword
branch.) -/
theorem c4_amended (text : List Char) :
    (detect_heading text = true ↔
      (2 ≤ (pstrip text).length ∧
        (((pstrip text).map upperChar = pstrip text ∧ (pstrip text).length < 50) ∨
          matchNumHeading (pstrip text) = true ∨
          headingKeywords.any (fun k => containsSeg k text) = true))) ∧
    detect_heading (("规格").toList) = true ∧
    detect_heading
      (("this is a long lowercase sentence that should not be a heading at all").toList) =
      false := by
  refine ⟨?_, by decide, by decide⟩
  unfold detect_heading
  by_cases h0 : text.isEmpty
  · have ht : text = [] := by simpa using h0
    subst ht
    simp [pstrip, lstrip, rstrip, List.rdropWhile]
  · by_cases h2 : (pstrip text).length < 2
    · simp [h0, h2]
    · have h2' : 2 ≤ (pstrip text).length := by omega
      simp only [h0, h2, Bool.false_eq_true, decide_eq_true_eq, if_false,
        Bool.or_false, or_false, false_or]
      by_cases hcaps : ((pstrip text).map upperChar == pstrip text) &&
          decide ((pstrip text).length < 50)
      · simp only [hcaps, if_true]
        constructor
        · intro _
          refine ⟨h2', Or.inl ?_⟩
          have := (Bool.and_eq_true _ _).mp hcaps
          exact ⟨by simpa using this.1, by simpa using this.2⟩
        · intro _
          rfl
      · simp only [hcaps, if_false]
        have hcaps' :
            ¬((pstrip text).map upperChar = pstrip text ∧ (pstrip text).length < 50) := by
          intro hc
          apply hcaps
          rw [Bool.and_eq_true]
          exact ⟨by simpa using hc.1, by simpa using hc.2⟩
        by_cases hnum : matchNumHeading (pstrip text)
        · simp [hnum, h2', hcaps']
        · by_cases hkw : headingKeywords.any (fun k => containsSeg k text)
          · simp [hnum, hkw, h2', hcaps']
          · simp [hnum, hkw, hcaps']

/-- C7: a table in which every cell of every row is empty or absent renders
to an empty result, and both page renderers suppress it entirely: no
heading, no header row, no separator row is emitted for it. -/
theorem c7_empty_table_suppressed (t : List (List Cell))
    (h : ∀ row ∈ t, ∀ c ∈ row, cellTruthy c = false) :
    format_table t = [] ∧ (∀ i, advTableEntry i t = []) ∧ basicTableEntry t = [] := by
  have hany : t.any rowTruthy = false := by
    simp only [List.any_eq_false, rowTruthy, List.any_eq_true, not_exists, not_and]
    intro row hrow c hc
    simp [h row hrow c hc]
  refine ⟨?_, ?_, ?_⟩
  · unfold format_table
    simp [hany]
  · intro i
    unfold advTableEntry
    simp [hany]
  · cases t with
    | nil => rfl
    | cons hdr rows =>
      unfold basicTableEntry
      simp [hany]

/-- C7 witness: a concrete table of `None` and empty-string cells is
suppressed by all renderers. -/
theorem c7_witness :
    format_table [[none, some (("").toList)], []] = [] ∧
    (∀ i, advTableEntry i [[none, some (("").toList)], []] = []) ∧
    basicTableEntry [[none, some (("").toList)], []] = [] :=
  c7_empty_table_suppressed [[none, some (("").toList)], []] (by decide)

/-- Python `text.split('\n\n')`: split on non-overlapping occurrences of
the two-newline separator, scanning left to right. -/
def splitOn2 : List Char → List (List Char)
  | [] => [[]]
  | '\n' :: '\n' :: rest => [] :: splitOn2 rest
  | c :: rest =>
    match splitOn2 rest with
    | [] => [[c]]
    | p :: ps => (c :: p) :: ps

/-- The markdown emitted for one page's text by
`extract_text_with_advanced_formatting` (lines 104-114 of
`advanced_pdf_to_markdown.py`): page heading, each blank-line-separated
paragraph of the cleaned text (rendered as a `###` heading when
`detect_heading` fires on its trimmed form), and a closing horizontal
rule. -/
def advPageTextEntry (page_num : Nat) (text : List Char) : List Char :=
  ("## 第 ").toList ++ (Nat.repr page_num).toList ++ (" 页\n\n").toList ++
  ((splitOn2 (clean_text_advanced (some text))).map (fun p =>
      if (pstrip p).isEmpty then []
      else if detect_heading (pstrip p) then
        ("### ").toList ++ pstrip p ++ ("\n\n").toList
      else pstrip p ++ ("\n\n").toList)).flatten ++
  ("---\n\n").toList

/-- The tables section of one page in the advanced script (lines 116-124):
`if tables:` guard, then one `advTableEntry` per table with its
`enumerate` index. -/
def advTablesSection (tables : List (List (List Cell))) : List Char :=
  if tables.isEmpty then []
  else (tables.enum.map (fun p => advTableEntry p.1 p.2)).flatten

/-- One whole page of `extract_text_with_advanced_formatting` (lines
95-124): the text block (page heading, paragraphs, horizontal rule) is
emitted only when the extracted text is truthy (present and non-empty); the
tables section always follows. -/
def advPageBlock (page_num : Nat) (text : Option (List Char))
    (tables : List (List (List Cell))) : List Char :=
  (match text with
   | none => []
   | some t => if t.isEmpty then [] else advPageTextEntry page_num t) ++
  advTablesSection tables

/-- The per-page text block of `extract_text_with_formatting`
(lines 41-59 of `pdf_to_markdown.py`), using the inline heading test. -/
def basicPageTextEntry (page_num : Nat) (text : List Char) : List Char :=
  ("## 第 ").toList ++ (Nat.repr page_num).toList ++ (" 页\n\n").toList ++
  ((splitOn2 (clean_text_basic (some text))).map (fun p =>
      if (pstrip p).isEmpty then []
      else if basicHeadingCheck p then
        ("### ").toList ++ pstrip p ++ ("\n\n").toList
      else pstrip p ++ ("\n\n").toList)).flatten ++
  ("---\n\n").toList

/-- The tables section of one page in `pdf_to_markdown.py` (lines 62-71). -/
def basicTablesSection (tables : List (List (List Cell))) : List Char :=
  if tables.isEmpty then []
  else (tables.map basicTableEntry).flatten

/-- One whole page of `extract_text_with_formatting` (lines 39-71). -/
def basicPageBlock (page_num : Nat) (text : Option (List Char))
    (tables : List (List (List Cell))) : List Char :=
  (match text with
   | none => []
   | some t => if t.isEmpty then [] else basicPageTextEntry page_num t) ++
  basicTablesSection tables

/-- C10: on a page whose extracted text is absent or empty, the page-level
heading and the trailing horizontal rule are omitted entirely, and the page
renders as exactly its tables section — table blocks with no page heading
before them. -/
theorem c10_textless_page (n : Nat) (tables : List (List (List Cell))) :
    advPageBlock n none tables = advTablesSection tables ∧
    advPageBlock n (some []) tables = advTablesSection tables ∧
    basicPageBlock n none tables = basicTablesSection tables ∧
    basicPageBlock n (some []) tables = basicTablesSection tables :=
  ⟨rfl, rfl, rfl, rfl⟩

/-- Messages printed by the conversion entry points. -/
inductive ConvMsg
  | notFound (path : List Char)
  | processingError
  | writeError
  | conversionError
  | converted
deriving DecidableEq

/-- The observable outcome of one conversion invocation: the boolean
result, the content of the file at the output path after the call (`none`
when the output file was never created or opened), and the messages
printed. -/
structure ConvOutcome where
  success : Bool
  outFile : Option (List Char)
  msgs : List ConvMsg
deriving DecidableEq

/-- `pdf_to_markdown_advanced` of `advanced_pdf_to_markdown.py` (lines
128-149), with the outside world as oracles: `pathExists` is the
`os.path.exists` test and `extracted` is the return value of
`extract_text_with_advanced_formatting` (`none` when extraction raised, was
caught, and the accumulated content discarded — in that case the output
file is never opened).  The write path is
`with open(output_path, 'w') as f: f.write(content)`: `openOk` tells
whether `open` itself succeeds (when it fails nothing is created), and
`writeOk` whether the single `f.write` completes.  Opening with mode `'w'`
creates or truncates the file before anything is written and the `except`
handler does not remove it, so when the write fails the file is left
holding the prefix of the content that reached the disk, whose length is
the oracle `flushed`. -/
def pdf_to_markdown_advanced (pdfPath : List Char) (pathExists : Bool)
    (extracted : Option (List Char)) (openOk writeOk : Bool) (flushed : Nat) :
    ConvOutcome :=
  if !pathExists then ⟨false, none, [ConvMsg.notFound pdfPath]⟩
  else
    match extracted with
    | none => ⟨false, none, [ConvMsg.processingError]⟩
    | some content =>
      if !openOk then ⟨false, none, [ConvMsg.writeError]⟩
      else if writeOk then ⟨true, some content, [ConvMsg.converted]⟩
      else ⟨false, some (content.take flushed), [ConvMsg.writeError]⟩

/-- `pdf_to_markdown` of `pdf_to_markdown.py` (lines 73-94): same
structure and same write path as the advanced entry point. -/
def pdf_to_markdown (pdfPath : List Char) (pathExists : Bool)
    (extracted : Option (List Char)) (openOk writeOk : Bool) (flushed : Nat) :
    ConvOutcome :=
  if !pathExists then ⟨false, none, [ConvMsg.notFound pdfPath]⟩
  else
    match extracted with
    | none => ⟨false, none, [ConvMsg.processingError]⟩
    | some content =>
      if !openOk then ⟨false, none, [ConvMsg.writeError]⟩
      else if writeOk then ⟨true, some content, [ConvMsg.converted]⟩
      else ⟨false, some (content.take flushed), [ConvMsg.writeError]⟩

/-- `pdf_to_markdown_simple` of `convert_pdf.py` (lines 13-60): the
existence check comes first; extraction, the `open(output_path, 'w')` and
the write all live in one `try` block, so any of those failures prints the
same message and returns `False`.  Extraction failure happens before the
output file is opened; a failed write leaves the created/truncated file
holding the flushed prefix of the content, exactly as in the other two
entry points. -/
def pdf_to_markdown_simple (pdfPath : List Char) (pathExists : Bool)
    (extracted : Option (List Char)) (openOk writeOk : Bool) (flushed : Nat) :
    ConvOutcome :=
  if !pathExists then ⟨false, none, [ConvMsg.notFound pdfPath]⟩
  else
    match extracted with
    | none => ⟨false, none, [ConvMsg.conversionError]⟩
    | some content =>
      if !openOk then ⟨false, none, [ConvMsg.conversionError]⟩
      else if writeOk then ⟨true, some content, [ConvMsg.converted]⟩
      else ⟨false, some (content.take flushed), [ConvMsg.conversionError]⟩

/-- The output-file state holds at most a (possibly empty, possibly
partial) prefix of the given content. -/
def filePrefixOf (out : Option (List Char)) (content : List Char) : Prop :=
  match out with
  | none => True
  | some w => w <+: content

/-- C5 counterexample: a failed output write does not discard the
accumulated Markdown content.  With the input present, extraction
succeeding with content "# Title", the output file opened successfully and
the single `f.write` failing after three characters reached the disk,
every entry point returns failure yet the (created and truncated) output
file is left holding the partial content "# T" — a partial Markdown file
is produced. -/
theorem c5_counterexample :
    (pdf_to_markdown_advanced (("doc.pdf").toList) true (some (("# Title").toList))
        true false 3).success = false ∧
    (pdf_to_markdown_advanced (("doc.pdf").toList) true (some (("# Title").toList))
        true false 3).outFile = some (("# T").toList) ∧
    (pdf_to_markdown (("doc.pdf").toList) true (some (("# Title").toList))
        true false 3).outFile = some (("# T").toList) ∧
    (pdf_to_markdown_simple (("doc.pdf").toList) true (some (("# Title").toList))
        true false 3).outFile = some (("# T").toList) ∧
    (pdf_to_markdown_advanced (("doc.pdf").toList) true (some (("# Title").toList))
        true false 3).outFile ≠ none := by decide

/-- C5 amended: whenever extraction or the output write fails, every
conversion entry point returns a failure signal.  When extraction fails,
all accumulated Markdown content is discarded and no output file is
created or opened.  When the write fails, however, `open(output_path, 'w')`
has already created or truncated the output file and the `except` handler
does not remove it, so the file may be left holding a prefix (possibly
empty, possibly partial) of the accumulated content — but never anything
other than such a prefix. -/
theorem c5_amended (path : List Char) (pe : Bool) (extracted : Option (List Char))
    (openOk writeOk : Bool) (flushed : Nat)
    (h : extracted = none ∨ openOk = false ∨ writeOk = false) :
    ((pdf_to_markdown_advanced path pe extracted openOk writeOk flushed).success = false ∧
      (pdf_to_markdown path pe extracted openOk writeOk flushed).success = false ∧
      (pdf_to_markdown_simple path pe extracted openOk writeOk flushed).success = false) ∧
    (extracted = none →
      (pdf_to_markdown_advanced path pe extracted openOk writeOk flushed).outFile = none ∧
      (pdf_to_markdown path pe extracted openOk writeOk flushed).outFile = none ∧
      (pdf_to_markdown_simple path pe extracted openOk writeOk flushed).outFile = none) ∧
    (filePrefixOf (pdf_to_markdown_advanced path pe extracted openOk writeOk flushed).outFile
        (extracted.getD []) ∧
      filePrefixOf (pdf_to_markdown path pe extracted openOk writeOk flushed).outFile
        (extracted.getD []) ∧
      filePrefixOf (pdf_to_markdown_simple path pe extracted openOk writeOk flushed).outFile
        (extracted.getD [])) := by
  cases pe with
  | false =>
    exact ⟨⟨rfl, rfl, rfl⟩, fun _ => ⟨rfl, rfl, rfl⟩, trivial, trivial, trivial⟩
  | true =>
    cases extracted with
    | none =>
      exact ⟨⟨rfl, rfl, rfl⟩, fun _ => ⟨rfl, rfl, rfl⟩, trivial, trivial, trivial⟩
    | some content =>
      have h' : openOk = false ∨ writeOk = false := by
        rcases h with h | h | h
        · exact absurd h (by simp)
        · exact Or.inl h
        · exact Or.inr h
      rcases h' with h' | h'
      · subst h'
        exact ⟨⟨rfl, rfl, rfl⟩, fun hc => absurd hc (by simp), trivial, trivial, trivial⟩
      · subst h'
        cases openOk with
        | false =>
          exact ⟨⟨rfl, rfl, rfl⟩, fun hc => absurd hc (by simp), trivial, trivial, trivial⟩
        | true =>
          refine ⟨⟨rfl, rfl, rfl⟩, fun hc => absurd hc (by simp), ?_, ?_, ?_⟩ <;>
            exact ⟨content.drop flushed, List.take_append_drop flushed content⟩

/-- C5 witness: a concrete failed extraction on an existing file — failure
is signalled, nothing is created, and the file state holds no content. -/
theorem c5_witness :
    ((none : Option (List Char)) = none ∨ (true : Bool) = false ∨
      (true : Bool) = false) ∧
    (((pdf_to_markdown_advanced (("doc.pdf").toList) true none true true 0).success = false ∧
      (pdf_to_markdown (("doc.pdf").toList) true none true true 0).success = false ∧
      (pdf_to_markdown_simple (("doc.pdf").toList) true none true true 0).success = false) ∧
    ((none : Option (List Char)) = none →
      (pdf_to_markdown_advanced (("doc.pdf").toList) true none true true 0).outFile = none ∧
      (pdf_to_markdown (("doc.pdf").toList) true none true true 0).outFile = none ∧
      (pdf_to_markdown_simple (("doc.pdf").toList) true none true true 0).outFile = none) ∧
    (filePrefixOf
        (pdf_to_markdown_advanced (("doc.pdf").toList) true none true true 0).outFile
        ((none : Option (List Char)).getD []) ∧
      filePrefixOf (pdf_to_markdown (("doc.pdf").toList) true none true true 0).outFile
        ((none : Option (List Char)).getD []) ∧
      filePrefixOf
        (pdf_to_markdown_simple (("doc.pdf").toList) true none true true 0).outFile
        ((none : Option (List Char)).getD []))) :=
  ⟨Or.inl rfl,
    c5_amended (("doc.pdf").toList) true none true true 0 (Or.inl rfl)⟩

/-- C8: when the input path does not exist, every conversion entry point
fails with the not-found message, no output file is created or opened, and
the result does not depend on the extraction, open or write oracles (the
existence check precedes any extraction attempt). -/
theorem c8_missing_input (path : List Char) (extracted : Option (List Char))
    (openOk writeOk : Bool) (flushed : Nat) :
    pdf_to_markdown_advanced path false extracted openOk writeOk flushed =
      ⟨false, none, [ConvMsg.notFound path]⟩ ∧
    pdf_to_markdown path false extracted openOk writeOk flushed =
      ⟨false, none, [ConvMsg.notFound path]⟩ ∧
    pdf_to_markdown_simple path false extracted openOk writeOk flushed =
      ⟨false, none, [ConvMsg.notFound path]⟩ :=
  ⟨rfl, rfl, rfl⟩

/-! ### Escaping: no raw special character survives `escapeSpecials` (C6) -/

/-- No raw `<` or `>` character occurs. -/
def noLtGt (l : List Char) : Bool := l.all (fun c => !(c == '<' || c == '>'))

/-- The list begins with the tail of one of the three produced entities. -/
def entAfterAmp (rest : List Char) : Bool :=
  List.isPrefixOf (("amp;").toList) rest ||
  List.isPrefixOf (("lt;").toList) rest ||
  List.isPrefixOf (("gt;").toList) rest

/-- Every `&` in the list starts one of the entities `&amp;`, `&lt;`,
`&gt;`. -/
def ampOk : List Char → Bool
  | [] => true
  | c :: rest => if c == '&' then entAfterAmp rest && ampOk rest else ampOk rest

/-- `escapeSpecials` acts independently on each input character. -/
def escFun (c : Char) : List Char :=
  if c == '&' then ampEnt
  else if c == '<' then ltEnt
  else if c == '>' then gtEnt
  else [c]

theorem replaceChar_append (a : Char) (rep l₁ l₂ : List Char) :
    replaceChar a rep (l₁ ++ l₂) = replaceChar a rep l₁ ++ replaceChar a rep l₂ := by
  simp [replaceChar]

theorem escapeSpecials_cons (c : Char) (cs : List Char) :
    escapeSpecials (c :: cs) = escFun c ++ escapeSpecials cs := by
  unfold escapeSpecials escFun
  rw [show replaceChar '&' ampEnt (c :: cs) =
      (if c == '&' then ampEnt else [c]) ++ replaceChar '&' ampEnt cs from rfl]
  rw [replaceChar_append, replaceChar_append]
  by_cases h1 : c = '&'
  · subst h1
    simp [replaceChar, ampEnt]
  · by_cases h2 : c = '<'
    · subst h2
      simp [replaceChar, ltEnt]
    · by_cases h3 : c = '>'
      · subst h3
        simp [replaceChar, gtEnt]
      · simp [replaceChar, h1, h2, h3]

theorem noLtGt_append (a b : List Char) :
    noLtGt (a ++ b) = (noLtGt a && noLtGt b) := by
  simp [noLtGt]

theorem ampOk_cons_ne (c : Char) (R : List Char) (h : ¬c = '&') :
    ampOk (c :: R) = ampOk R := by
  simp [ampOk, h]

theorem ampOk_ampEnt (R : List Char) : ampOk (ampEnt ++ R) = ampOk R := by
  simp [ampEnt, ampOk, entAfterAmp, List.isPrefixOf]

theorem ampOk_ltEnt (R : List Char) : ampOk (ltEnt ++ R) = ampOk R := by
  simp [ltEnt, ampOk, entAfterAmp, List.isPrefixOf]

theorem ampOk_gtEnt (R : List Char) : ampOk (gtEnt ++ R) = ampOk R := by
  simp [gtEnt, ampOk, entAfterAmp, List.isPrefixOf]

/-- After `escapeSpecials` no raw `<`/`>` remains and every `&` begins an
entity. -/
theorem escapeSpecials_ok (l : List Char) :
    noLtGt (escapeSpecials l) = true ∧ ampOk (escapeSpecials l) = true := by
  induction l with
  | nil => exact ⟨rfl, rfl⟩
  | cons c cs ih =>
    rw [escapeSpecials_cons]
    constructor
    · rw [noLtGt_append, ih.1, Bool.and_true]
      unfold escFun
      by_cases h1 : c = '&'
      · simp [h1, ampEnt, noLtGt]
      · by_cases h2 : c = '<'
        · simp [h1, h2, ltEnt, noLtGt]
        · by_cases h3 : c = '>'
          · simp [h1, h2, h3, gtEnt, noLtGt]
          · simp [h1, h2, h3, noLtGt]
    · unfold escFun
      by_cases h1 : c = '&'
      · simpa [h1, ampOk_ampEnt] using ih.2
      · by_cases h2 : c = '<'
        · simpa [h1, h2, ampOk_ltEnt] using ih.2
        · by_cases h3 : c = '>'
          · simpa [h1, h2, h3, ampOk_gtEnt] using ih.2
          · simpa [h1, h2, h3, ampOk_cons_ne c _ h1] using ih.2

/-! ### Stripping preserves the escape invariants -/

theorem rstrip_decomp (l : List Char) :
    ∃ w, l = rstrip l ++ w ∧ ∀ a ∈ w, isPyWS a = true := by
  refine ⟨(l.reverse.takeWhile isPyWS).reverse, ?_, ?_⟩
  · have h : l.reverse.takeWhile isPyWS ++ l.reverse.dropWhile isPyWS = l.reverse :=
      List.takeWhile_append_dropWhile isPyWS l.reverse
    calc l = l.reverse.reverse := (List.reverse_reverse l).symm
    _ = (l.reverse.takeWhile isPyWS ++ l.reverse.dropWhile isPyWS).reverse := by rw [h]
    _ = (l.reverse.dropWhile isPyWS).reverse ++ (l.reverse.takeWhile isPyWS).reverse := by
        rw [List.reverse_append]
    _ = rstrip l ++ (l.reverse.takeWhile isPyWS).reverse := rfl
  · intro a ha
    rw [List.mem_reverse] at ha
    exact List.mem_takeWhile_imp ha

theorem lstrip_decomp (l : List Char) :
    ∃ w, l = w ++ lstrip l ∧ ∀ a ∈ w, isPyWS a = true := by
  refine ⟨l.takeWhile isPyWS, ?_, ?_⟩
  · exact (List.takeWhile_append_dropWhile isPyWS l).symm
  · intro a ha
    exact List.mem_takeWhile_imp ha

theorem pstrip_decomp (l : List Char) :
    ∃ w₁ w₂, l = w₁ ++ pstrip l ++ w₂ ∧
      (∀ a ∈ w₁, isPyWS a = true) ∧ (∀ a ∈ w₂, isPyWS a = true) := by
  obtain ⟨w₁, h₁, hw₁⟩ := lstrip_decomp l
  obtain ⟨w₂, h₂, hw₂⟩ := rstrip_decomp (lstrip l)
  refine ⟨w₁, w₂, ?_, hw₁, hw₂⟩
  conv_lhs => rw [h₁, h₂]
  simp [pstrip, List.append_assoc]

theorem mem_pstrip (a : Char) (l : List Char) (h : a ∈ pstrip l) : a ∈ l := by
  obtain ⟨w₁, w₂, hdec, -, -⟩ := pstrip_decomp l
  rw [hdec]
  simp [h]

theorem ampOk_tail (c : Char) (l : List Char) (h : ampOk (c :: l) = true) :
    ampOk l = true := by
  by_cases hc : c = '&'
  · subst hc
    simp [ampOk] at h
    exact h.2
  · rwa [ampOk_cons_ne c l hc] at h

theorem ampOk_dropWhile (p : Char → Bool) (l : List Char) (h : ampOk l = true) :
    ampOk (l.dropWhile p) = true := by
  induction l with
  | nil => exact h
  | cons c cs ih =>
    by_cases hp : p c
    · rw [List.dropWhile_cons_of_pos hp]
      exact ih (ampOk_tail c cs h)
    · rwa [List.dropWhile_cons_of_neg hp]

theorem isPrefixOf_of_append_ws :
    ∀ es l w : List Char, (∀ a ∈ es, isPyWS a = false) → (∀ a ∈ w, isPyWS a = true) →
      List.isPrefixOf es (l ++ w) = true → List.isPrefixOf es l = true := by
  intro es
  induction es with
  | nil => intro l w _ _ _; simp
  | cons e es ih =>
    intro l w hes hw h
    cases l with
    | nil =>
      exfalso
      cases w with
      | nil => simp [List.isPrefixOf] at h
      | cons b w' =>
        rw [List.nil_append, List.isPrefixOf_cons₂, Bool.and_eq_true, beq_iff_eq] at h
        have he := hes e (by simp)
        have hb := hw b (by simp)
        rw [h.1, hb] at he
        exact Bool.true_eq_false.mp he
    | cons x l' =>
      rw [List.cons_append, List.isPrefixOf_cons₂, Bool.and_eq_true] at h
      rw [List.isPrefixOf_cons₂, Bool.and_eq_true]
      exact ⟨h.1, ih l' w (fun a ha => hes a (List.mem_cons_of_mem e ha)) hw h.2⟩

theorem entAfterAmp_of_append_ws (l w : List Char)
    (hw : ∀ a ∈ w, isPyWS a = true) (h : entAfterAmp (l ++ w) = true) :
    entAfterAmp l = true := by
  unfold entAfterAmp at h ⊢
  rcases Bool.or_eq_true_iff.mp h with h' | h'
  · rcases Bool.or_eq_true_iff.mp h' with h'' | h''
    · exact Bool.or_eq_true_iff.mpr (Or.inl (Bool.or_eq_true_iff.mpr
        (Or.inl (isPrefixOf_of_append_ws _ l w (by decide) hw h''))))
    · exact Bool.or_eq_true_iff.mpr (Or.inl (Bool.or_eq_true_iff.mpr
        (Or.inr (isPrefixOf_of_append_ws _ l w (by decide) hw h''))))
  · exact Bool.or_eq_true_iff.mpr (Or.inr
      (isPrefixOf_of_append_ws _ l w (by decide) hw h'))

theorem ampOk_append_ws (l : List Char) :
    ∀ w, (∀ a ∈ w, isPyWS a = true) → ampOk (l ++ w) = true → ampOk l = true := by
  induction l with
  | nil => intro w _ _; rfl
  | cons c l' ih =>
    intro w hw h
    by_cases hc : c = '&'
    · subst hc
      rw [List.cons_append] at h
      simp [ampOk] at h ⊢
      exact ⟨entAfterAmp_of_append_ws l' w hw h.1, ih w hw h.2⟩
    · rw [List.cons_append, ampOk_cons_ne c _ hc] at h
      rw [ampOk_cons_ne c _ hc]
      exact ih w hw h

theorem ampOk_pstrip (l : List Char) (h : ampOk l = true) :
    ampOk (pstrip l) = true := by
  have h₁ : ampOk (lstrip l) = true := ampOk_dropWhile isPyWS l h
  obtain ⟨w, hdec, hw⟩ := rstrip_decomp (lstrip l)
  rw [hdec] at h₁
  exact ampOk_append_ws (rstrip (lstrip l)) w hw h₁

theorem noLtGt_pstrip (l : List Char) (h : noLtGt l = true) :
    noLtGt (pstrip l) = true := by
  rw [noLtGt, List.all_eq_true] at h ⊢
  intro c hc
  exact h c (mem_pstrip c l hc)

/-- C6: for every input, neither `clean_text` variant leaves an unescaped
`&`, `<` or `>` in its output: the output has no raw `<` or `>` character
and every `&` begins one of the entities `&amp;`, `&lt;`, `&gt;`. -/
theorem c6_no_unescaped_specials (s : List Char) :
    noLtGt (clean_text_advanced (some s)) = true ∧
    ampOk (clean_text_advanced (some s)) = true ∧
    noLtGt (clean_text_basic (some s)) = true ∧
    ampOk (clean_text_basic (some s)) = true := by
  unfold clean_text_advanced clean_text_basic
  by_cases h : s.isEmpty
  · simp [h, noLtGt, ampOk]
  · simp only [h, Bool.false_eq_true, if_false]
    exact ⟨noLtGt_pstrip _ (escapeSpecials_ok _).1,
      ampOk_pstrip _ (escapeSpecials_ok _).2,
      (escapeSpecials_ok _).1, (escapeSpecials_ok _).2⟩

/-! ### Run-collapsing: adjacency invariants (for C1 and C2) -/

/-- No two adjacent characters both satisfy `p`. -/
def noPairP (p : Char → Bool) : List Char → Bool
  | a :: b :: r => !(p a && p b) && noPairP p (b :: r)
  | _ => true

theorem noPairP_nil (p : Char → Bool) : noPairP p [] = true := rfl

theorem noPairP_one (p : Char → Bool) (a : Char) : noPairP p [a] = true := rfl

theorem noPairP_cons₂ (p : Char → Bool) (a b : Char) (r : List Char) :
    noPairP p (a :: b :: r) = (!(p a && p b) && noPairP p (b :: r)) := rfl

theorem noPairP_cons_iff (p : Char → Bool) (x : Char) (L : List Char) :
    noPairP p (x :: L) = true ↔
      ((∀ y, L.head? = some y → ¬(p x = true ∧ p y = true)) ∧ noPairP p L = true) := by
  cases L with
  | nil => simp [noPairP]
  | cons b r =>
    rw [noPairP_cons₂, Bool.and_eq_true]
    simp only [List.head?_cons, Option.some.injEq]
    constructor
    · rintro ⟨h1, h2⟩
      refine ⟨?_, h2⟩
      rintro y rfl ⟨hx, hy⟩
      rw [hx, hy] at h1
      simp at h1
    · rintro ⟨h1, h2⟩
      refine ⟨?_, h2⟩
      by_cases hx : p x
      · by_cases hb : p b
        · exact absurd ⟨hx, hb⟩ (h1 b rfl)
        · simp [hb]
      · simp [hx]

theorem noPairP_tail (p : Char → Bool) (a : Char) (l : List Char)
    (h : noPairP p (a :: l) = true) : noPairP p l = true :=
  ((noPairP_cons_iff p a l).mp h).2

theorem noPairP_append_left (p : Char → Bool) :
    ∀ l w : List Char, noPairP p (l ++ w) = true → noPairP p l = true := by
  intro l
  induction l with
  | nil => intro w _; rfl
  | cons x l' ih =>
    intro w h
    rw [List.cons_append] at h
    obtain ⟨h1, h2⟩ := (noPairP_cons_iff p x (l' ++ w)).mp h
    refine (noPairP_cons_iff p x l').mpr ⟨?_, ih w h2⟩
    intro y hy
    refine h1 y ?_
    cases l' with
    | nil => simp at hy
    | cons z l'' => simpa using hy

theorem noPairP_suffix (p : Char → Bool) (l' l : List Char)
    (hs : l' <:+ l) (h : noPairP p l = true) : noPairP p l' = true := by
  obtain ⟨t, ht⟩ := hs
  subst ht
  induction t with
  | nil => exact h
  | cons a t' ih => exact ih (noPairP_tail p a _ h)

theorem noPairP_dropWhile (p q : Char → Bool) (l : List Char)
    (h : noPairP p l = true) : noPairP p (l.dropWhile q) = true :=
  noPairP_suffix p _ l (List.dropWhile_suffix q) h

theorem noPairP_pstrip (p : Char → Bool) (l : List Char)
    (h : noPairP p l = true) : noPairP p (pstrip l) = true := by
  have h1 : noPairP p (lstrip l) = true := noPairP_dropWhile p isPyWS l h
  obtain ⟨w, hdec, -⟩ := rstrip_decomp (lstrip l)
  rw [hdec] at h1
  exact noPairP_append_left p _ w h1

theorem collapseRuns_nil (p : Char → Bool) : collapseRuns p [] = [] := rfl

theorem collapseRuns_head? (p : Char → Bool) :
    ∀ l : List Char,
      (collapseRuns p l).head? = l.head?.map (fun c => if p c then ' ' else c) := by
  intro l
  induction l with
  | nil => rfl
  | cons c cs ih =>
    cases cs with
    | nil =>
      by_cases h : p c <;> simp [collapseRuns, h]
    | cons d rest =>
      by_cases h1 : p c
      · by_cases h2 : p d
        · rw [show collapseRuns p (c :: d :: rest) = collapseRuns p (d :: rest) by
            simp [collapseRuns, h1, h2]]
          rw [ih]
          simp [h1, h2]
        · rw [show collapseRuns p (c :: d :: rest) =
              ' ' :: collapseRuns p (d :: rest) by simp [collapseRuns, h1, h2]]
          simp [h1]
      · rw [show collapseRuns p (c :: d :: rest) =
            c :: collapseRuns p (d :: rest) by simp [collapseRuns, h1]]
        simp [h1]

theorem collapseRuns_memP (p : Char → Bool) :
    ∀ l : List Char, ∀ c ∈ collapseRuns p l, p c = true → c = ' ' := by
  intro l
  induction l with
  | nil => intro c hc; simp [collapseRuns] at hc
  | cons a cs ih =>
    intro c hc hp
    cases cs with
    | nil =>
      by_cases h : p a <;> simp [collapseRuns, h] at hc
      · exact hc
      · subst hc
        rw [hp] at h
        exact absurd rfl h
    | cons d rest =>
      by_cases h1 : p a
      · by_cases h2 : p d
        · rw [show collapseRuns p (a :: d :: rest) = collapseRuns p (d :: rest) by
            simp [collapseRuns, h1, h2]] at hc
          exact ih c hc hp
        · rw [show collapseRuns p (a :: d :: rest) =
              ' ' :: collapseRuns p (d :: rest) by simp [collapseRuns, h1, h2]] at hc
          rcases List.mem_cons.mp hc with h | h
          · exact h
          · exact ih c h hp
      · rw [show collapseRuns p (a :: d :: rest) =
            a :: collapseRuns p (d :: rest) by simp [collapseRuns, h1]] at hc
        rcases List.mem_cons.mp hc with h | h
        · subst h
          rw [hp] at h1
          exact absurd rfl h1
        · exact ih c h hp

theorem collapseRuns_mem (p : Char → Bool) :
    ∀ l : List Char, ∀ c ∈ collapseRuns p l, c ∈ l ∨ c = ' ' := by
  intro l
  induction l with
  | nil => intro c hc; simp [collapseRuns] at hc
  | cons a cs ih =>
    intro c hc
    cases cs with
    | nil =>
      by_cases h : p a <;> simp [collapseRuns, h] at hc
      · exact Or.inr hc
      · exact Or.inl (by simp [hc])
    | cons d rest =>
      by_cases h1 : p a
      · by_cases h2 : p d
        · rw [show collapseRuns p (a :: d :: rest) = collapseRuns p (d :: rest) by
            simp [collapseRuns, h1, h2]] at hc
          rcases ih c hc with h | h
          · exact Or.inl (List.mem_cons_of_mem a h)
          · exact Or.inr h
        · rw [show collapseRuns p (a :: d :: rest) =
              ' ' :: collapseRuns p (d :: rest) by simp [collapseRuns, h1, h2]] at hc
          rcases List.mem_cons.mp hc with h | h
          · exact Or.inr h
          · rcases ih c h with h' | h'
            · exact Or.inl (List.mem_cons_of_mem a h')
            · exact Or.inr h'
      · rw [show collapseRuns p (a :: d :: rest) =
            a :: collapseRuns p (d :: rest) by simp [collapseRuns, h1]] at hc
        rcases List.mem_cons.mp hc with h | h
        · exact Or.inl (by simp [h])
        · rcases ih c h with h' | h'
          · exact Or.inl (List.mem_cons_of_mem a h')
          · exact Or.inr h'

theorem collapseRuns_noPair (p : Char → Bool) :
    ∀ l : List Char, noPairP p (collapseRuns p l) = true := by
  intro l
  induction l with
  | nil => exact rfl
  | cons a cs ih =>
    cases cs with
    | nil =>
      by_cases h : p a <;> simp [collapseRuns, h, noPairP_one]
    | cons d rest =>
      by_cases h1 : p a
      · by_cases h2 : p d
        · rw [show collapseRuns p (a :: d :: rest) = collapseRuns p (d :: rest) by
            simp [collapseRuns, h1, h2]]
          exact ih
        · rw [show collapseRuns p (a :: d :: rest) =
              ' ' :: collapseRuns p (d :: rest) by simp [collapseRuns, h1, h2]]
          refine (noPairP_cons_iff p ' ' _).mpr ⟨?_, ih⟩
          intro y hy
          rw [collapseRuns_head? p (d :: rest)] at hy
          simp only [List.head?_cons, Option.map_some'] at hy
          rw [if_neg h2] at hy
          rintro ⟨-, hpy⟩
          obtain rfl : d = y := by injection hy
          exact h2 hpy
      · rw [show collapseRuns p (a :: d :: rest) =
            a :: collapseRuns p (d :: rest) by simp [collapseRuns, h1]]
        refine (noPairP_cons_iff p a _).mpr ⟨?_, ih⟩
        rintro y - ⟨hpa, -⟩
        exact h1 hpa

theorem collapseRuns_id (p : Char → Bool) :
    ∀ l : List Char, noPairP p l = true → (∀ c ∈ l, p c = true → c = ' ') →
      collapseRuns p l = l := by
  intro l
  induction l with
  | nil => intro _ _; rfl
  | cons a cs ih =>
    intro hnp hmem
    cases cs with
    | nil =>
      by_cases h : p a
      · have : a = ' ' := hmem a (by simp) h
        simp [collapseRuns, h, this]
      · simp [collapseRuns, h]
    | cons d rest =>
      have hpair := ((noPairP_cons_iff p a (d :: rest)).mp hnp).1
      have hnp' := noPairP_tail p a (d :: rest) hnp
      have hmem' : ∀ c ∈ d :: rest, p c = true → c = ' ' :=
        fun c hc => hmem c (List.mem_cons_of_mem a hc)
      by_cases h1 : p a
      · have hnd : ¬p d = true := fun hd => hpair d rfl ⟨h1, hd⟩
        have ha : a = ' ' := hmem a (by simp) h1
        rw [show collapseRuns p (a :: d :: rest) =
            ' ' :: collapseRuns p (d :: rest) by
          simp [collapseRuns, h1, hnd]]
        rw [ih hnp' hmem', ha]
      · rw [show collapseRuns p (a :: d :: rest) =
            a :: collapseRuns p (d :: rest) by simp [collapseRuns, h1]]
        rw [ih hnp' hmem']

theorem getLast?_cons_of_ne (x : Char) (L : List Char) (h : L ≠ []) :
    (x :: L).getLast? = L.getLast? := by
  cases L with
  | nil => exact absurd rfl h
  | cons b r => exact List.getLast?_cons_cons

theorem collapseRuns_getLast? (p : Char → Bool) :
    ∀ l : List Char,
      (collapseRuns p l).getLast? = l.getLast?.map (fun c => if p c then ' ' else c) := by
  intro l
  induction l with
  | nil => rfl
  | cons a cs ih =>
    cases cs with
    | nil =>
      by_cases h : p a <;> simp [collapseRuns, h]
    | cons d rest =>
      have hne : collapseRuns p (d :: rest) ≠ [] := by
        intro hcontra
        have := collapseRuns_head? p (d :: rest)
        rw [hcontra] at this
        simp at this
      by_cases h1 : p a
      · by_cases h2 : p d
        · rw [show collapseRuns p (a :: d :: rest) = collapseRuns p (d :: rest) by
            simp [collapseRuns, h1, h2]]
          rw [ih]
          simp
        · rw [show collapseRuns p (a :: d :: rest) =
              ' ' :: collapseRuns p (d :: rest) by simp [collapseRuns, h1, h2]]
          rw [getLast?_cons_of_ne ' ' _ hne, ih]
          simp
      · rw [show collapseRuns p (a :: d :: rest) =
            a :: collapseRuns p (d :: rest) by simp [collapseRuns, h1]]
        rw [getLast?_cons_of_ne a _ hne, ih]
        simp

/-! ### The newline substitution: structural lemmas (for C1 and C2) -/

theorem head?_dropWhile_false (p : Char → Bool) (l : List Char) (x : Char)
    (h : (l.dropWhile p).head? = some x) : p x = false := by
  have H := List.head?_dropWhile_not p l
  rw [h] at H
  exact H

theorem afterLastNl_no_nl (w : List Char) : '\n' ∉ afterLastNl w := by
  intro h
  rw [afterLastNl, List.mem_reverse] at h
  have := List.mem_takeWhile_imp h
  simp at this

theorem afterLastNl_suffix (w : List Char) : afterLastNl w <:+ w := by
  refine ⟨(w.reverse.dropWhile (fun c => !(c == '\n'))).reverse, ?_⟩
  rw [afterLastNl, ← List.reverse_append, List.takeWhile_append_dropWhile,
    List.reverse_reverse]

theorem afterLastNl_length_lt (w : List Char) (h : '\n' ∈ w) :
    (afterLastNl w).length < w.length := by
  rw [afterLastNl, List.length_reverse]
  have hd : w.reverse.dropWhile (fun c => !(c == '\n')) ≠ [] := by
    rw [Ne, List.dropWhile_eq_nil_iff]
    intro hall
    have := hall '\n' (List.mem_reverse.mpr h)
    simp at this
  have hpos : 0 < (w.reverse.dropWhile (fun c => !(c == '\n'))).length :=
    List.length_pos.mpr hd
  have hlen : (w.reverse.takeWhile (fun c => !(c == '\n'))).length +
      (w.reverse.dropWhile (fun c => !(c == '\n'))).length = w.length := by
    rw [← List.length_append, List.takeWhile_append_dropWhile, List.length_reverse]
  omega

theorem afterLastNl_cons_no_nl (x : List Char) (h : '\n' ∉ x) :
    afterLastNl ('\n' :: x) = x := by
  rw [afterLastNl, List.reverse_cons]
  rw [List.takeWhile_append_of_pos (by
    intro a ha
    rw [List.mem_reverse] at ha
    simp only [Bool.not_eq_true']
    rw [beq_eq_false_iff_ne]
    exact fun hc => h (hc ▸ ha))]
  rw [show List.takeWhile (fun c => !(c == '\n')) ['\n'] = [] from rfl]
  rw [List.append_nil, List.reverse_reverse]

theorem subNlGo_head? (f : Nat) (l : List Char) : (subNlGo f l).head? = l.head? := by
  cases f with
  | zero => cases l <;> rfl
  | succ f =>
    cases l with
    | nil => rfl
    | cons c cs =>
      rw [subNlGo]
      split
      · rename_i h
        rw [h.1]
        rfl
      · rfl

/-- The continuation after a `\n\s*\n` match: its length bound. -/
theorem contLen (cs : List Char) (h : '\n' ∈ cs.takeWhile isPyWS) :
    (afterLastNl (cs.takeWhile isPyWS) ++ cs.dropWhile isPyWS).length + 1 ≤ cs.length := by
  rw [List.length_append]
  have h1 := afterLastNl_length_lt (cs.takeWhile isPyWS) h
  have h2 : (cs.takeWhile isPyWS).length + (cs.dropWhile isPyWS).length = cs.length := by
    rw [← List.length_append, List.takeWhile_append_dropWhile]
  omega

/-- The continuation after a match is a suffix of the scanned tail. -/
theorem contSuffix (cs : List Char) :
    afterLastNl (cs.takeWhile isPyWS) ++ cs.dropWhile isPyWS <:+ cs := by
  obtain ⟨t, ht⟩ := afterLastNl_suffix (cs.takeWhile isPyWS)
  refine ⟨t, ?_⟩
  rw [← List.append_assoc, ht, List.takeWhile_append_dropWhile]

/-- The continuation after a match never starts with a newline. -/
theorem contHead (cs : List Char) :
    ∀ y, (afterLastNl (cs.takeWhile isPyWS) ++ cs.dropWhile isPyWS).head? = some y →
      y ≠ '\n' := by
  intro y hy
  cases hA : afterLastNl (cs.takeWhile isPyWS) with
  | nil =>
    rw [hA, List.nil_append] at hy
    have := head?_dropWhile_false isPyWS cs y hy
    intro hc
    subst hc
    simp [isPyWS] at this
  | cons a rest =>
    rw [hA, List.cons_append, List.head?_cons] at hy
    obtain rfl : a = y := by injection hy
    intro hc
    subst hc
    exact afterLastNl_no_nl (cs.takeWhile isPyWS) (by rw [hA]; simp)

/-- Invariant of the output of the newline substitution: wherever a newline
is followed within whitespace by another newline, the two are adjacent and
no further newline occurs in the following whitespace run.  On such strings
the substitution is the identity (proved below). -/
def nlNormal (t : List Char) : Prop :=
  ∀ u v : List Char, t = u ++ '\n' :: v → '\n' ∈ v.takeWhile isPyWS →
    ∃ v', v = '\n' :: v' ∧ '\n' ∉ v'.takeWhile isPyWS

theorem nlNormal_tail (a : Char) (l : List Char) (h : nlNormal (a :: l)) :
    nlNormal l := by
  intro u v huv hnl
  exact h (a :: u) v (by rw [List.cons_append, huv]) hnl

theorem mem_takeWhile_append_left (p : Char → Bool) (v w : List Char) (a : Char)
    (h : a ∈ v.takeWhile p) : a ∈ (v ++ w).takeWhile p := by
  rw [List.takeWhile_append]
  split
  · exact List.mem_append_left _ ((List.takeWhile_sublist p).subset h)
  · exact h

theorem takeWhile_dropWhile_nil (p : Char → Bool) (l : List Char) :
    (l.dropWhile p).takeWhile p = [] := by
  cases hD : l.dropWhile p with
  | nil => rfl
  | cons d rest =>
    have hpd : p d = false := head?_dropWhile_false p l d (by rw [hD]; rfl)
    rw [List.takeWhile_cons_of_neg (by simp [hpd])]

theorem nlNormal_append_ws (l w : List Char) (H : nlNormal (l ++ w)) :
    nlNormal l := by
  intro u v huv hnl
  have huv' : l ++ w = u ++ '\n' :: (v ++ w) := by
    rw [huv, List.append_assoc, List.cons_append]
  obtain ⟨v'', hv'', hnotin⟩ := H u (v ++ w) huv' (mem_takeWhile_append_left _ v w _ hnl)
  cases v with
  | nil => simp at hnl
  | cons x vt =>
    rw [List.cons_append] at hv''
    injection hv'' with hx hrest
    refine ⟨vt, by rw [hx], ?_⟩
    rw [← hrest] at hnotin
    exact fun hm => hnotin (mem_takeWhile_append_left _ vt w _ hm)

theorem nlNormal_suffix (l' l : List Char) (hs : l' <:+ l) (h : nlNormal l) :
    nlNormal l' := by
  obtain ⟨t, ht⟩ := hs
  subst ht
  induction t with
  | nil => exact h
  | cons a t' ih => exact ih (nlNormal_tail a _ h)

theorem nlNormal_dropWhile (q : Char → Bool) (l : List Char) (h : nlNormal l) :
    nlNormal (l.dropWhile q) :=
  nlNormal_suffix _ l (List.dropWhile_suffix q) h

theorem nlNormal_pstrip (l : List Char) (h : nlNormal l) : nlNormal (pstrip l) := by
  have h1 : nlNormal (lstrip l) := nlNormal_dropWhile isPyWS l h
  obtain ⟨w, hdec, -⟩ := rstrip_decomp (lstrip l)
  rw [hdec] at h1
  exact nlNormal_append_ws _ w h1

theorem afterLastNl_all_ws (cs : List Char) :
    ∀ a ∈ afterLastNl (cs.takeWhile isPyWS), isPyWS a = true := by
  intro a ha
  exact List.mem_takeWhile_imp ((afterLastNl_suffix (cs.takeWhile isPyWS)).subset ha)

/-- The continuation after a match has no newline in its whitespace run. -/
theorem contNoNl (cs : List Char) :
    '\n' ∉ (afterLastNl (cs.takeWhile isPyWS) ++ cs.dropWhile isPyWS).takeWhile isPyWS := by
  rw [List.takeWhile_append_of_pos (afterLastNl_all_ws cs)]
  intro hmem
  rcases List.mem_append.mp hmem with h | h
  · exact afterLastNl_no_nl _ h
  · rw [takeWhile_dropWhile_nil] at h
    simp at h

theorem subNlGo_no_nl_takeWhile :
    ∀ (f : Nat) (l : List Char), l.length ≤ f → '\n' ∉ l.takeWhile isPyWS →
      '\n' ∉ (subNlGo f l).takeWhile isPyWS := by
  intro f
  induction f with
  | zero =>
    intro l hf h
    have hl : l = [] := List.length_eq_zero.mp (Nat.le_zero.mp hf)
    subst hl
    exact h
  | succ f ih =>
    intro l hf h
    cases l with
    | nil => exact h
    | cons c cs =>
      have hf' : cs.length ≤ f := by simp at hf; omega
      rw [subNlGo]
      split
      · rename_i hm
        exfalso
        apply h
        rw [hm.1, List.takeWhile_cons_of_pos (by simp [isPyWS])]
        exact List.mem_cons_self _ _
      · by_cases hws : isPyWS c
        · rw [List.takeWhile_cons_of_pos hws] at h
          rw [List.takeWhile_cons_of_pos hws]
          intro hmem
          rcases List.mem_cons.mp hmem with h1 | h1
          · exact h (h1 ▸ List.mem_cons_self c (cs.takeWhile isPyWS))
          · exact ih cs hf' (fun hx => h (List.mem_cons_of_mem c hx)) h1
        · rw [List.takeWhile_cons_of_neg hws]
          simp

theorem subNlGo_nlNormal :
    ∀ (f : Nat) (l : List Char), l.length ≤ f → nlNormal (subNlGo f l) := by
  intro f
  induction f with
  | zero =>
    intro l hf
    have hl : l = [] := List.length_eq_zero.mp (Nat.le_zero.mp hf)
    subst hl
    intro u v huv
    exact absurd huv.symm (by simp [subNlGo])
  | succ f ih =>
    intro l hf
    cases l with
    | nil =>
      intro u v huv
      exact absurd huv.symm (by simp [subNlGo])
    | cons c cs =>
      have hf' : cs.length ≤ f := by simp at hf; omega
      rw [subNlGo]
      split
      · rename_i hm
        obtain ⟨hc, hin⟩ := hm
        have hkf : (afterLastNl (cs.takeWhile isPyWS) ++ cs.dropWhile isPyWS).length ≤ f := by
          have := contLen cs hin
          omega
        have hOn : nlNormal
            (subNlGo f (afterLastNl (cs.takeWhile isPyWS) ++ cs.dropWhile isPyWS)) :=
          ih _ hkf
        have hOt : '\n' ∉
            (subNlGo f (afterLastNl (cs.takeWhile isPyWS) ++
              cs.dropWhile isPyWS)).takeWhile isPyWS :=
          subNlGo_no_nl_takeWhile f _ hkf (contNoNl cs)
        intro u v huv hnl
        cases u with
        | nil =>
          rw [List.nil_append] at huv
          injection huv with _ hv
          exact ⟨_, hv.symm, hOt⟩
        | cons x u' =>
          rw [List.cons_append] at huv
          injection huv with hx hrest
          cases u' with
          | nil =>
            rw [List.nil_append] at hrest
            injection hrest with _ hv
            exact absurd (hv ▸ hnl) hOt
          | cons y u'' =>
            rw [List.cons_append] at hrest
            injection hrest with hy hrest2
            exact hOn u'' v hrest2 hnl
      · rename_i hm
        have hOn : nlNormal (subNlGo f cs) := ih cs hf'
        intro u v huv hnl
        cases u with
        | nil =>
          rw [List.nil_append] at huv
          injection huv with hc hv
          have hnin : '\n' ∉ cs.takeWhile isPyWS := fun hx => hm ⟨hc, hx⟩
          exact absurd (hv ▸ hnl) (subNlGo_no_nl_takeWhile f cs hf' hnin)
        | cons x u' =>
          rw [List.cons_append] at huv
          injection huv with _ hrest
          exact hOn u' v hrest hnl

theorem subNlGo_id_of_nlNormal :
    ∀ (f : Nat) (l : List Char), l.length ≤ f → nlNormal l → subNlGo f l = l := by
  intro f
  induction f with
  | zero =>
    intro l hf _
    have hl : l = [] := List.length_eq_zero.mp (Nat.le_zero.mp hf)
    subst hl
    rfl
  | succ f ih =>
    intro l hf hQ
    cases l with
    | nil => rfl
    | cons c cs =>
      have hf' : cs.length ≤ f := by simp at hf; omega
      rw [subNlGo]
      split
      · rename_i hm
        obtain ⟨hc, hin⟩ := hm
        subst hc
        obtain ⟨v', hv', hnin⟩ := hQ [] cs rfl hin
        subst hv'
        rw [List.takeWhile_cons_of_pos (by simp [isPyWS])]
        rw [List.dropWhile_cons_of_pos (by simp [isPyWS])]
        rw [afterLastNl_cons_no_nl _ hnin]
        rw [List.takeWhile_append_dropWhile]
        have hQ' : nlNormal v' := nlNormal_tail _ _ (nlNormal_tail _ _ hQ)
        rw [ih v' (by simp at hf; omega) hQ']
      · rw [ih cs hf' (nlNormal_tail _ _ hQ)]

/-- The newline substitution is idempotent. -/
theorem subNl_nlNormal (l : List Char) : nlNormal (subNl l) :=
  subNlGo_nlNormal l.length l le_rfl

theorem subNl_id_of_nlNormal (l : List Char) (h : nlNormal l) : subNl l = l :=
  subNlGo_id_of_nlNormal l.length l le_rfl h

/-! ### Stripping is idempotent; membership lemmas -/

theorem head?_of_isPrefix (l₁ l₂ : List Char) (h : l₁ <+: l₂) (hne : l₁ ≠ []) :
    l₂.head? = l₁.head? := by
  obtain ⟨t, ht⟩ := h
  subst ht
  cases l₁ with
  | nil => exact absurd rfl hne
  | cons a r => rfl

theorem lstrip_eq_self (l : List Char)
    (h : ∀ x, l.head? = some x → isPyWS x = false) : lstrip l = l := by
  cases l with
  | nil => rfl
  | cons a r =>
    rw [lstrip, List.dropWhile_cons_of_neg (by simp [h a rfl])]

theorem rstrip_eq_self (l : List Char)
    (h : ∀ x, l.getLast? = some x → isPyWS x = false) : rstrip l = l := by
  rw [rstrip, List.rdropWhile_eq_self_iff]
  intro hl
  have := h (l.getLast hl) (List.getLast?_eq_getLast l hl)
  simp [this]

theorem pstrip_head_not_ws (l : List Char) :
    ∀ x, (pstrip l).head? = some x → isPyWS x = false := by
  intro x hx
  have hne : pstrip l ≠ [] := by
    intro h0
    rw [h0] at hx
    simp at hx
  have hpre : pstrip l <+: lstrip l := List.rdropWhile_prefix isPyWS (lstrip l)
  have hh : (lstrip l).head? = (pstrip l).head? := head?_of_isPrefix _ _ hpre hne
  exact head?_dropWhile_false isPyWS l x (hh.trans hx)

theorem pstrip_last_not_ws (l : List Char) :
    ∀ x, (pstrip l).getLast? = some x → isPyWS x = false := by
  intro x hx
  have hne : pstrip l ≠ [] := by
    intro h0
    rw [h0] at hx
    simp at hx
  rw [List.getLast?_eq_getLast _ hne] at hx
  obtain rfl : (pstrip l).getLast hne = x := by injection hx
  have h3 : ¬ isPyWS ((pstrip l).getLast hne) :=
    List.rdropWhile_last_not isPyWS (lstrip l) hne
  simpa using h3

theorem pstrip_idem (l : List Char) : pstrip (pstrip l) = pstrip l := by
  rw [show pstrip (pstrip l) = rstrip (lstrip (pstrip l)) from rfl]
  rw [lstrip_eq_self _ (pstrip_head_not_ws l)]
  exact rstrip_eq_self _ (pstrip_last_not_ws l)

theorem subNlGo_mem :
    ∀ (f : Nat) (l : List Char) (c : Char), c ∈ subNlGo f l → c ∈ l ∨ c = '\n' := by
  intro f
  induction f with
  | zero =>
    intro l c hc
    cases l with
    | nil => simp [subNlGo] at hc
    | cons a cs => exact Or.inl hc
  | succ f ih =>
    intro l c hc
    cases l with
    | nil => simp [subNlGo] at hc
    | cons a cs =>
      rw [subNlGo] at hc
      split at hc
      · rcases List.mem_cons.mp hc with h1 | h1
        · exact Or.inr h1
        rcases List.mem_cons.mp h1 with h2 | h2
        · exact Or.inr h2
        · rcases ih _ c h2 with h3 | h3
          · exact Or.inl (List.mem_cons_of_mem a ((contSuffix cs).subset h3))
          · exact Or.inr h3
      · rcases List.mem_cons.mp hc with h1 | h1
        · exact Or.inl (List.mem_cons.mpr (Or.inl h1))
        · rcases ih cs c h1 with h3 | h3
          · exact Or.inl (List.mem_cons_of_mem a h3)
          · exact Or.inr h3

theorem subNl_mem (l : List Char) (c : Char) (hc : c ∈ subNl l) : c ∈ l ∨ c = '\n' :=
  subNlGo_mem l.length l c hc

theorem replaceChar_mem (a : Char) (rep l : List Char) (c : Char)
    (h : c ∈ replaceChar a rep l) : c ∈ l ∨ c ∈ rep := by
  rw [replaceChar, List.mem_flatMap] at h
  obtain ⟨d, hd, hc⟩ := h
  by_cases hda : (d == a) = true
  · rw [if_pos hda] at hc
    exact Or.inr hc
  · rw [if_neg hda] at hc
    simp at hc
    exact Or.inl (hc ▸ hd)

theorem escapeSpecials_mem (l : List Char) (c : Char) (h : c ∈ escapeSpecials l) :
    c ∈ l ∨ c ∈ ampEnt ∨ c ∈ ltEnt ∨ c ∈ gtEnt := by
  rw [escapeSpecials] at h
  rcases replaceChar_mem _ _ _ _ h with h' | h'
  · rcases replaceChar_mem _ _ _ _ h' with h'' | h''
    · rcases replaceChar_mem _ _ _ _ h'' with h3 | h3
      · exact Or.inl h3
      · exact Or.inr (Or.inl h3)
    · exact Or.inr (Or.inr (Or.inl h''))
  · exact Or.inr (Or.inr (Or.inr h'))

theorem replaceChar_id (a : Char) (rep : List Char) :
    ∀ l : List Char, a ∉ l → replaceChar a rep l = l := by
  intro l
  induction l with
  | nil => intro _; rfl
  | cons c cs ih =>
    intro h
    have hca : ¬(c == a) = true := by
      simp only [beq_iff_eq]
      intro hc
      exact h (hc ▸ List.mem_cons_self c cs)
    rw [show replaceChar a rep (c :: cs) =
        (if c == a then rep else [c]) ++ replaceChar a rep cs from rfl]
    rw [if_neg hca, ih (fun hm => h (List.mem_cons_of_mem c hm))]
    rfl

theorem escapeSpecials_id (l : List Char)
    (h1 : '&' ∉ l) (h2 : '<' ∉ l) (h3 : '>' ∉ l) : escapeSpecials l = l := by
  rw [escapeSpecials, replaceChar_id '&' ampEnt l h1, replaceChar_id '<' ltEnt l h2,
    replaceChar_id '>' gtEnt l h3]

theorem subNlGo_noPair (p : Char → Bool) (hnl : p '\n' = false) :
    ∀ (f : Nat) (l : List Char), l.length ≤ f → noPairP p l = true →
      noPairP p (subNlGo f l) = true := by
  intro f
  induction f with
  | zero =>
    intro l hf h
    have hl : l = [] := List.length_eq_zero.mp (Nat.le_zero.mp hf)
    subst hl
    exact h
  | succ f ih =>
    intro l hf h
    cases l with
    | nil => exact h
    | cons c cs =>
      have hf' : cs.length ≤ f := by simp at hf; omega
      rw [subNlGo]
      split
      · rename_i hm
        obtain ⟨hc, hin⟩ := hm
        have hkf := contLen cs hin
        have hks : noPairP p
            (afterLastNl (cs.takeWhile isPyWS) ++ cs.dropWhile isPyWS) = true :=
          noPairP_suffix p _ cs (contSuffix cs) (noPairP_tail p c cs h)
        have hO := ih _ (by omega) hks
        refine (noPairP_cons_iff p '\n' _).mpr ⟨?_, ?_⟩
        · rintro y - ⟨hp1, -⟩
          rw [hnl] at hp1
          exact Bool.false_ne_true hp1
        · refine (noPairP_cons_iff p '\n' _).mpr ⟨?_, hO⟩
          rintro y - ⟨hp1, -⟩
          rw [hnl] at hp1
          exact Bool.false_ne_true hp1
      · have hO := ih cs hf' (noPairP_tail p c cs h)
        refine (noPairP_cons_iff p c _).mpr ⟨?_, hO⟩
        intro y hy hpy
        rw [subNlGo_head? f cs] at hy
        have hpair := ((noPairP_cons_iff p c cs).mp h).1
        cases cs with
        | nil => simp at hy
        | cons d r => exact hpair y hy hpy

/-! ### Idempotence of the cleaners on escape-free input (C1) -/

theorem clean_advanced_idem (s : List Char)
    (h1 : '&' ∉ s) (h2 : '<' ∉ s) (h3 : '>' ∉ s) :
    clean_text_advanced (some (clean_text_advanced (some s))) =
      clean_text_advanced (some s) := by
  by_cases hs : s.isEmpty
  · simp [clean_text_advanced, hs]
  · have hymem : ∀ c ∈ subNl (collapseRuns isHT s), c ∈ s ∨ c = ' ' ∨ c = '\n' := by
      intro c hc
      rcases subNl_mem _ c hc with h | h
      · rcases collapseRuns_mem isHT s c h with h' | h'
        · exact Or.inl h'
        · exact Or.inr (Or.inl h')
      · exact Or.inr (Or.inr h)
    have hy1 : '&' ∉ subNl (collapseRuns isHT s) := by
      intro hm
      rcases hymem '&' hm with h | h | h
      · exact h1 h
      · exact absurd h (by decide)
      · exact absurd h (by decide)
    have hy2 : '<' ∉ subNl (collapseRuns isHT s) := by
      intro hm
      rcases hymem '<' hm with h | h | h
      · exact h2 h
      · exact absurd h (by decide)
      · exact absurd h (by decide)
    have hy3 : '>' ∉ subNl (collapseRuns isHT s) := by
      intro hm
      rcases hymem '>' hm with h | h | h
      · exact h3 h
      · exact absurd h (by decide)
      · exact absurd h (by decide)
    have hesc : escapeSpecials (subNl (collapseRuns isHT s)) =
        subNl (collapseRuns isHT s) := escapeSpecials_id _ hy1 hy2 hy3
    have hT : clean_text_advanced (some s) = pstrip (subNl (collapseRuns isHT s)) := by
      rw [show clean_text_advanced (some s) =
          (if s.isEmpty then []
           else pstrip (escapeSpecials (subNl (collapseRuns isHT s)))) from rfl]
      rw [if_neg hs, hesc]
    rw [hT]
    by_cases hTe : (pstrip (subNl (collapseRuns isHT s))).isEmpty
    · simp [clean_text_advanced, hTe, List.isEmpty_iff.mp hTe]
    · have hTmem : ∀ c ∈ pstrip (subNl (collapseRuns isHT s)),
          c ∈ subNl (collapseRuns isHT s) := fun c hc => mem_pstrip c _ hc
      have hTnp : noPairP isHT (pstrip (subNl (collapseRuns isHT s))) = true := by
        apply noPairP_pstrip
        rw [show subNl (collapseRuns isHT s) =
            subNlGo (collapseRuns isHT s).length (collapseRuns isHT s) from rfl]
        exact subNlGo_noPair isHT (by decide) _ _ le_rfl (collapseRuns_noPair isHT s)
      have hTmemP : ∀ c ∈ pstrip (subNl (collapseRuns isHT s)),
          isHT c = true → c = ' ' := by
        intro c hc hht
        rcases subNl_mem _ c (hTmem c hc) with h | h
        · exact collapseRuns_memP isHT s c h hht
        · subst h
          simp [isHT] at hht
      have hCR : collapseRuns isHT (pstrip (subNl (collapseRuns isHT s))) =
          pstrip (subNl (collapseRuns isHT s)) :=
        collapseRuns_id isHT _ hTnp hTmemP
      have hQ : nlNormal (pstrip (subNl (collapseRuns isHT s))) :=
        nlNormal_pstrip _ (subNl_nlNormal (collapseRuns isHT s))
      have hsub : subNl (pstrip (subNl (collapseRuns isHT s))) =
          pstrip (subNl (collapseRuns isHT s)) := subNl_id_of_nlNormal _ hQ
      have hTesc : escapeSpecials (pstrip (subNl (collapseRuns isHT s))) =
          pstrip (subNl (collapseRuns isHT s)) := by
        refine escapeSpecials_id _ ?_ ?_ ?_
        · exact fun hm => hy1 (hTmem _ hm)
        · exact fun hm => hy2 (hTmem _ hm)
        · exact fun hm => hy3 (hTmem _ hm)
      have hps : pstrip (pstrip (subNl (collapseRuns isHT s))) =
          pstrip (subNl (collapseRuns isHT s)) := pstrip_idem _
      rw [show clean_text_advanced (some (pstrip (subNl (collapseRuns isHT s)))) =
          (if (pstrip (subNl (collapseRuns isHT s))).isEmpty then []
           else pstrip (escapeSpecials (subNl (collapseRuns isHT
             (pstrip (subNl (collapseRuns isHT s))))))) from rfl]
      rw [if_neg hTe, hCR, hsub, hTesc, hps]

theorem clean_basic_idem (s : List Char)
    (h1 : '&' ∉ s) (h2 : '<' ∉ s) (h3 : '>' ∉ s) :
    clean_text_basic (some (clean_text_basic (some s))) =
      clean_text_basic (some s) := by
  by_cases hs : s.isEmpty
  · simp [clean_text_basic, hs]
  · have hUmem : ∀ c ∈ collapseRuns isPyWS (pstrip s), c ∈ s ∨ c = ' ' := by
      intro c hc
      rcases collapseRuns_mem isPyWS (pstrip s) c hc with h | h
      · exact Or.inl (mem_pstrip c s h)
      · exact Or.inr h
    have hU1 : '&' ∉ collapseRuns isPyWS (pstrip s) := by
      intro hm
      rcases hUmem '&' hm with h | h
      · exact h1 h
      · exact absurd h (by decide)
    have hU2 : '<' ∉ collapseRuns isPyWS (pstrip s) := by
      intro hm
      rcases hUmem '<' hm with h | h
      · exact h2 h
      · exact absurd h (by decide)
    have hU3 : '>' ∉ collapseRuns isPyWS (pstrip s) := by
      intro hm
      rcases hUmem '>' hm with h | h
      · exact h3 h
      · exact absurd h (by decide)
    have hesc : escapeSpecials (collapseRuns isPyWS (pstrip s)) =
        collapseRuns isPyWS (pstrip s) := escapeSpecials_id _ hU1 hU2 hU3
    have hT : clean_text_basic (some s) = collapseRuns isPyWS (pstrip s) := by
      rw [show clean_text_basic (some s) =
          (if s.isEmpty then []
           else escapeSpecials (collapseRuns isPyWS (pstrip s))) from rfl]
      rw [if_neg hs, hesc]
    rw [hT]
    by_cases hUe : (collapseRuns isPyWS (pstrip s)).isEmpty
    · simp [clean_text_basic, hUe, List.isEmpty_iff.mp hUe]
    · have hhead : ∀ x, (collapseRuns isPyWS (pstrip s)).head? = some x →
          isPyWS x = false := by
        intro x hx
        rw [collapseRuns_head? isPyWS (pstrip s)] at hx
        cases hps : (pstrip s).head? with
        | none => rw [hps] at hx; simp at hx
        | some c =>
          rw [hps] at hx
          simp only [Option.map_some'] at hx
          have hc : isPyWS c = false := pstrip_head_not_ws s c hps
          rw [hc] at hx
          simp only [Bool.false_eq_true, if_false] at hx
          obtain rfl : c = x := by injection hx
          exact hc
      have hlast : ∀ x, (collapseRuns isPyWS (pstrip s)).getLast? = some x →
          isPyWS x = false := by
        intro x hx
        rw [collapseRuns_getLast? isPyWS (pstrip s)] at hx
        cases hps : (pstrip s).getLast? with
        | none => rw [hps] at hx; simp at hx
        | some c =>
          rw [hps] at hx
          simp only [Option.map_some'] at hx
          have hc : isPyWS c = false := pstrip_last_not_ws s c hps
          rw [hc] at hx
          simp only [Bool.false_eq_true, if_false] at hx
          obtain rfl : c = x := by injection hx
          exact hc
      have hpsU : pstrip (collapseRuns isPyWS (pstrip s)) =
          collapseRuns isPyWS (pstrip s) := by
        rw [show pstrip (collapseRuns isPyWS (pstrip s)) =
            rstrip (lstrip (collapseRuns isPyWS (pstrip s))) from rfl]
        rw [lstrip_eq_self _ hhead]
        exact rstrip_eq_self _ hlast
      have hCR : collapseRuns isPyWS (collapseRuns isPyWS (pstrip s)) =
          collapseRuns isPyWS (pstrip s) :=
        collapseRuns_id isPyWS _ (collapseRuns_noPair isPyWS (pstrip s))
          (collapseRuns_memP isPyWS (pstrip s))
      rw [show clean_text_basic (some (collapseRuns isPyWS (pstrip s))) =
          (if (collapseRuns isPyWS (pstrip s)).isEmpty then []
           else escapeSpecials (collapseRuns isPyWS
             (pstrip (collapseRuns isPyWS (pstrip s))))) from rfl]
      rw [if_neg hUe, hpsU, hCR, hesc]

/-- C1 amended: `normalize_text` is idempotent on every string that contains
none of the escaped characters `&`, `<`, `>` (on strings containing one of
them, a second application double-escapes the generated entities, see the
counterexample). -/
theorem c1_amended (s : List Char)
    (h1 : '&' ∉ s) (h2 : '<' ∉ s) (h3 : '>' ∉ s) :
    clean_text_advanced (some (clean_text_advanced (some s))) =
      clean_text_advanced (some s) ∧
    clean_text_basic (some (clean_text_basic (some s))) =
      clean_text_basic (some s) :=
  ⟨clean_advanced_idem s h1 h2 h3, clean_basic_idem s h1 h2 h3⟩

/-- C1 witness: a concrete escape-free string with tabs, spaces and blank
lines. -/
theorem c1_witness :
    ('&' ∉ (("  a\tb \n\n\n c  ").toList) ∧ '<' ∉ (("  a\tb \n\n\n c  ").toList) ∧
      '>' ∉ (("  a\tb \n\n\n c  ").toList)) ∧
    (clean_text_advanced (some (clean_text_advanced (some (("  a\tb \n\n\n c  ").toList)))) =
        clean_text_advanced (some (("  a\tb \n\n\n c  ").toList)) ∧
      clean_text_basic (some (clean_text_basic (some (("  a\tb \n\n\n c  ").toList)))) =
        clean_text_basic (some (("  a\tb \n\n\n c  ").toList))) :=
  ⟨⟨by decide, by decide, by decide⟩,
    c1_amended (("  a\tb \n\n\n c  ").toList) (by decide) (by decide) (by decide)⟩

/-! ### No three consecutive newlines (for C2) -/

/-- No three consecutive newline characters occur. -/
def noTripleNl : List Char → Bool
  | a :: b :: c :: r =>
    !(a == '\n' && b == '\n' && c == '\n') && noTripleNl (b :: c :: r)
  | _ => true

theorem noTripleNl_cons_iff (x : Char) (L : List Char) :
    noTripleNl (x :: L) = true ↔
      ((∀ r, L = '\n' :: '\n' :: r → x ≠ '\n') ∧ noTripleNl L = true) := by
  match L with
  | [] => simp [noTripleNl]
  | [b] => simp [noTripleNl]
  | b :: c :: r =>
    rw [show noTripleNl (x :: b :: c :: r) =
        (!(x == '\n' && b == '\n' && c == '\n') && noTripleNl (b :: c :: r)) from rfl]
    rw [Bool.and_eq_true]
    constructor
    · rintro ⟨h1, h2⟩
      refine ⟨?_, h2⟩
      rintro r' hr hx
      injection hr with hb hr2
      injection hr2 with hc hr3
      rw [hx, hb, hc] at h1
      simp at h1
    · rintro ⟨h1, h2⟩
      refine ⟨?_, h2⟩
      by_cases hx : x = '\n'
      · by_cases hb : b = '\n'
        · by_cases hc : c = '\n'
          · exact absurd hx (h1 r (by rw [hb, hc]))
          · simp [hc]
        · simp [hb]
      · simp [hx]

theorem noTripleNl_tail (a : Char) (l : List Char) (h : noTripleNl (a :: l) = true) :
    noTripleNl l = true :=
  ((noTripleNl_cons_iff a l).mp h).2

theorem noTripleNl_append_left :
    ∀ l w : List Char, noTripleNl (l ++ w) = true → noTripleNl l = true := by
  intro l
  induction l with
  | nil => intro w _; rfl
  | cons x l' ih =>
    intro w h
    rw [List.cons_append] at h
    obtain ⟨h1, h2⟩ := (noTripleNl_cons_iff x (l' ++ w)).mp h
    refine (noTripleNl_cons_iff x l').mpr ⟨?_, ih w h2⟩
    intro r hr
    exact h1 (r ++ w) (by rw [hr, List.cons_append, List.cons_append])

theorem noTripleNl_suffix (l' l : List Char) (hs : l' <:+ l)
    (h : noTripleNl l = true) : noTripleNl l' = true := by
  obtain ⟨t, ht⟩ := hs
  subst ht
  induction t with
  | nil => exact h
  | cons a t' ih => exact ih (noTripleNl_tail a _ h)

theorem noTripleNl_pstrip (l : List Char) (h : noTripleNl l = true) :
    noTripleNl (pstrip l) = true := by
  have h1 : noTripleNl (lstrip l) = true :=
    noTripleNl_suffix _ l (List.dropWhile_suffix isPyWS) h
  obtain ⟨w, hdec, -⟩ := rstrip_decomp (lstrip l)
  rw [hdec] at h1
  exact noTripleNl_append_left _ w h1

theorem subNlGo_noTriple :
    ∀ (f : Nat) (l : List Char), l.length ≤ f → noTripleNl (subNlGo f l) = true := by
  intro f
  induction f with
  | zero =>
    intro l hf
    have hl : l = [] := List.length_eq_zero.mp (Nat.le_zero.mp hf)
    subst hl
    rfl
  | succ f ih =>
    intro l hf
    cases l with
    | nil => rfl
    | cons c cs =>
      have hf' : cs.length ≤ f := by simp at hf; omega
      rw [subNlGo]
      split
      · rename_i hm
        obtain ⟨hc, hin⟩ := hm
        have hkf : (afterLastNl (cs.takeWhile isPyWS) ++ cs.dropWhile isPyWS).length ≤ f := by
          have := contLen cs hin
          omega
        have hO := ih _ hkf
        have hOh : ∀ y,
            (subNlGo f (afterLastNl (cs.takeWhile isPyWS) ++
              cs.dropWhile isPyWS)).head? = some y → y ≠ '\n' := by
          intro y hy
          rw [subNlGo_head?] at hy
          exact contHead cs y hy
        refine (noTripleNl_cons_iff _ _).mpr ⟨?_, (noTripleNl_cons_iff _ _).mpr ⟨?_, hO⟩⟩
        · rintro r hr
          injection hr with _ hO2
          exact absurd rfl (hOh '\n' (by rw [hO2]; rfl))
        · rintro r hr
          exact absurd rfl (hOh '\n' (by rw [hr]; rfl))
      · rename_i hm
        refine (noTripleNl_cons_iff _ _).mpr ⟨?_, ih cs hf'⟩
        rintro r hr hc
        have hnin : '\n' ∉ cs.takeWhile isPyWS := fun hx => hm ⟨hc, hx⟩
        have hh : cs.head? = some '\n' := by rw [← subNlGo_head? f cs, hr]; rfl
        cases cs with
        | nil => simp at hh
        | cons d cs' =>
          obtain rfl : d = '\n' := by
            rw [List.head?_cons] at hh
            injection hh
          refine hnin ?_
          rw [List.takeWhile_cons_of_pos (by simp [isPyWS])]
          exact List.mem_cons_self _ _

theorem subNl_noTriple (l : List Char) : noTripleNl (subNl l) = true :=
  subNlGo_noTriple l.length l le_rfl

/-! ### Entity substitution preserves the whitespace-shape invariants -/

theorem noPairP_append_notP (p : Char → Bool) (w R : List Char)
    (hw : ∀ x ∈ w, p x = false) (hR : noPairP p R = true) :
    noPairP p (w ++ R) = true := by
  induction w with
  | nil => simpa using hR
  | cons x w' ih =>
    rw [List.cons_append]
    refine (noPairP_cons_iff p x _).mpr
      ⟨?_, ih (fun a ha => hw a (List.mem_cons_of_mem x ha))⟩
    rintro y - ⟨hpx, -⟩
    rw [hw x (List.mem_cons_self x w')] at hpx
    exact Bool.false_ne_true hpx

theorem rcHead_cases (a : Char) (rep l : List Char) (hrep : rep ≠ []) (y : Char)
    (hy : (replaceChar a rep l).head? = some y) :
    y ∈ rep ∨ (∃ d, l.head? = some d ∧ y = d ∧ (d == a) = false) := by
  cases l with
  | nil => simp [replaceChar] at hy
  | cons d cs =>
    rw [show replaceChar a rep (d :: cs) =
        (if d == a then rep else [d]) ++ replaceChar a rep cs from rfl] at hy
    by_cases hda : (d == a) = true
    · rw [if_pos hda] at hy
      left
      cases rep with
      | nil => exact absurd rfl hrep
      | cons r0 rs =>
        rw [List.cons_append, List.head?_cons] at hy
        obtain rfl : r0 = y := by injection hy
        exact List.mem_cons_self _ _
    · rw [if_neg hda, List.singleton_append, List.head?_cons] at hy
      right
      refine ⟨d, rfl, ?_, by simpa using hda⟩
      injection hy with h0
      exact h0.symm

theorem replaceChar_noPair (p : Char → Bool) (a : Char) (rep : List Char)
    (hrep : rep ≠ []) (hw : ∀ x ∈ rep, p x = false) :
    ∀ l : List Char, noPairP p l = true → noPairP p (replaceChar a rep l) = true := by
  intro l
  induction l with
  | nil => intro _; rfl
  | cons c cs ih =>
    intro h
    rw [show replaceChar a rep (c :: cs) =
        (if c == a then rep else [c]) ++ replaceChar a rep cs from rfl]
    have hcs := ih (noPairP_tail p c cs h)
    by_cases hca : (c == a) = true
    · rw [if_pos hca]
      exact noPairP_append_notP p rep _ hw hcs
    · rw [if_neg hca, List.singleton_append]
      refine (noPairP_cons_iff p c _).mpr ⟨?_, hcs⟩
      intro y hy hpy
      rcases rcHead_cases a rep cs hrep y hy with hmem | hd
      · rw [hw y hmem] at hpy
        exact Bool.false_ne_true hpy.2
      · obtain ⟨d, hd2, hyd, -⟩ := hd
        rw [hyd] at hpy
        exact ((noPairP_cons_iff p c cs).mp h).1 d hd2 hpy

theorem noTripleNl_append_no_nl (w R : List Char) (hw : ∀ x ∈ w, ¬x = '\n')
    (hR : noTripleNl R = true) : noTripleNl (w ++ R) = true := by
  induction w with
  | nil => simpa using hR
  | cons x w' ih =>
    rw [List.cons_append]
    refine (noTripleNl_cons_iff x _).mpr
      ⟨?_, ih (fun a ha => hw a (List.mem_cons_of_mem x ha))⟩
    intro r _
    exact hw x (List.mem_cons_self x w')

theorem replaceChar_nl_head (a : Char) (rep : List Char) (hrep : rep ≠ [])
    (hrnl : ∀ x ∈ rep, ¬x = '\n') :
    ∀ cs X : List Char, replaceChar a rep cs = '\n' :: X →
      ∃ cs', cs = '\n' :: cs' ∧ X = replaceChar a rep cs' := by
  intro cs X h
  cases cs with
  | nil => simp [replaceChar] at h
  | cons d cs' =>
    rw [show replaceChar a rep (d :: cs') =
        (if d == a then rep else [d]) ++ replaceChar a rep cs' from rfl] at h
    by_cases hda : (d == a) = true
    · rw [if_pos hda] at h
      cases rep with
      | nil => exact absurd rfl hrep
      | cons r0 rs =>
        rw [List.cons_append] at h
        injection h with h0 _
        exact absurd h0 (hrnl r0 (List.mem_cons_self _ _))
    · rw [if_neg hda, List.singleton_append] at h
      injection h with h0 h1
      exact ⟨cs', by rw [h0], h1.symm⟩

theorem replaceChar_noTriple (a : Char) (rep : List Char) (hrep : rep ≠ [])
    (hrnl : ∀ x ∈ rep, ¬x = '\n') :
    ∀ l : List Char, noTripleNl l = true → noTripleNl (replaceChar a rep l) = true := by
  intro l
  induction l with
  | nil => intro _; rfl
  | cons c cs ih =>
    intro h
    rw [show replaceChar a rep (c :: cs) =
        (if c == a then rep else [c]) ++ replaceChar a rep cs from rfl]
    have hcs := ih (noTripleNl_tail c cs h)
    by_cases hca : (c == a) = true
    · rw [if_pos hca]
      exact noTripleNl_append_no_nl rep _ hrnl hcs
    · rw [if_neg hca, List.singleton_append]
      refine (noTripleNl_cons_iff c _).mpr ⟨?_, hcs⟩
      intro r hr hc
      obtain ⟨cs1, hcs1, hX⟩ := replaceChar_nl_head a rep hrep hrnl cs ('\n' :: r) hr
      obtain ⟨cs2, hcs2, -⟩ := replaceChar_nl_head a rep hrep hrnl cs1 r hX.symm
      exact ((noTripleNl_cons_iff c cs).mp h).1 cs2 (by rw [hcs1, hcs2]) hc

theorem escapeSpecials_noPair (p : Char → Bool) (l : List Char)
    (ha : ∀ x ∈ ampEnt, p x = false) (hl : ∀ x ∈ ltEnt, p x = false)
    (hg : ∀ x ∈ gtEnt, p x = false) (h : noPairP p l = true) :
    noPairP p (escapeSpecials l) = true :=
  replaceChar_noPair p '>' gtEnt (by decide) hg _
    (replaceChar_noPair p '<' ltEnt (by decide) hl _
      (replaceChar_noPair p '&' ampEnt (by decide) ha l h))

theorem escapeSpecials_noTriple (l : List Char) (h : noTripleNl l = true) :
    noTripleNl (escapeSpecials l) = true :=
  replaceChar_noTriple '>' gtEnt (by decide) (by decide) _
    (replaceChar_noTriple '<' ltEnt (by decide) (by decide) _
      (replaceChar_noTriple '&' ampEnt (by decide) (by decide) l h))

theorem escapeSpecials_append (l₁ l₂ : List Char) :
    escapeSpecials (l₁ ++ l₂) = escapeSpecials l₁ ++ escapeSpecials l₂ := by
  simp [escapeSpecials, replaceChar_append]

theorem escapeSpecials_head_not_ws (l : List Char)
    (h : ∀ y, l.head? = some y → isPyWS y = false) :
    ∀ x, (escapeSpecials l).head? = some x → isPyWS x = false := by
  intro x hx
  cases l with
  | nil => simp [escapeSpecials, replaceChar] at hx
  | cons c cs =>
    rw [escapeSpecials_cons] at hx
    unfold escFun at hx
    by_cases h1 : c = '&'
    · rw [if_pos (by simp [h1])] at hx
      rw [show ampEnt ++ escapeSpecials cs = '&' :: (['a', 'm', 'p', ';'] ++
        escapeSpecials cs) from rfl, List.head?_cons] at hx
      obtain rfl : '&' = x := by injection hx
      decide
    · rw [if_neg (by simp [h1])] at hx
      by_cases h2 : c = '<'
      · rw [if_pos (by simp [h2])] at hx
        rw [show ltEnt ++ escapeSpecials cs = '&' :: (['l', 't', ';'] ++
          escapeSpecials cs) from rfl, List.head?_cons] at hx
        obtain rfl : '&' = x := by injection hx
        decide
      · rw [if_neg (by simp [h2])] at hx
        by_cases h3 : c = '>'
        · rw [if_pos (by simp [h3])] at hx
          rw [show gtEnt ++ escapeSpecials cs = '&' :: (['g', 't', ';'] ++
            escapeSpecials cs) from rfl, List.head?_cons] at hx
          obtain rfl : '&' = x := by injection hx
          decide
        · rw [if_neg (by simp [h3]), List.singleton_append, List.head?_cons] at hx
          obtain rfl : c = x := by injection hx
          exact h c rfl

theorem escFun_ne_nil (c : Char) : escFun c ≠ [] := by
  unfold escFun
  split
  · simp [ampEnt]
  split
  · simp [ltEnt]
  split
  · simp [gtEnt]
  · simp

theorem escFun_getLast?_cases (c x : Char) (hx : (escFun c).getLast? = some x) :
    x = ';' ∨ x = c := by
  unfold escFun at hx
  by_cases h1 : c = '&'
  · rw [if_pos (by simp [h1])] at hx
    rw [show (ampEnt : List Char).getLast? = some ';' from rfl] at hx
    left
    injection hx with h0
    exact h0.symm
  · rw [if_neg (by simp [h1])] at hx
    by_cases h2 : c = '<'
    · rw [if_pos (by simp [h2])] at hx
      rw [show (ltEnt : List Char).getLast? = some ';' from rfl] at hx
      left
      injection hx with h0
      exact h0.symm
    · rw [if_neg (by simp [h2])] at hx
      by_cases h3 : c = '>'
      · rw [if_pos (by simp [h3])] at hx
        rw [show (gtEnt : List Char).getLast? = some ';' from rfl] at hx
        left
        injection hx with h0
        exact h0.symm
      · rw [if_neg (by simp [h3])] at hx
        rw [List.getLast?_singleton] at hx
        right
        injection hx with h0
        exact h0.symm

theorem escapeSpecials_last_not_ws (l : List Char)
    (h : ∀ y, l.getLast? = some y → isPyWS y = false) :
    ∀ x, (escapeSpecials l).getLast? = some x → isPyWS x = false := by
  rcases List.eq_nil_or_concat l with rfl | ⟨A, c, rfl⟩
  · intro x hx
    simp [escapeSpecials, replaceChar] at hx
  · intro x hx
    rw [List.concat_eq_append] at h hx
    rw [escapeSpecials_append, List.getLast?_append] at hx
    rw [show escapeSpecials [c] = escFun c from by
      rw [escapeSpecials_cons]
      simp [escapeSpecials, replaceChar]] at hx
    cases hE : (escFun c).getLast? with
    | none =>
      exfalso
      have hsome := List.getLast?_eq_getLast (escFun c) (escFun_ne_nil c)
      rw [hE] at hsome
      exact absurd hsome (by simp)
    | some e =>
      rw [hE] at hx
      rw [show (some e).or (escapeSpecials A).getLast? = some e from rfl] at hx
      obtain rfl : e = x := by injection hx
      rcases escFun_getLast?_cases c e hE with h' | h'
      · subst h'
        decide
      · subst h'
        exact h e (by rw [List.getLast?_append]; rfl)

theorem basicU_head_not_ws (s : List Char) :
    ∀ x, (collapseRuns isPyWS (pstrip s)).head? = some x → isPyWS x = false := by
  intro x hx
  rw [collapseRuns_head? isPyWS (pstrip s)] at hx
  cases hps : (pstrip s).head? with
  | none => rw [hps] at hx; simp at hx
  | some c =>
    rw [hps] at hx
    simp only [Option.map_some'] at hx
    have hc : isPyWS c = false := pstrip_head_not_ws s c hps
    rw [hc] at hx
    simp only [Bool.false_eq_true, if_false] at hx
    obtain rfl : c = x := by injection hx
    exact hc

theorem basicU_last_not_ws (s : List Char) :
    ∀ x, (collapseRuns isPyWS (pstrip s)).getLast? = some x → isPyWS x = false := by
  intro x hx
  rw [collapseRuns_getLast? isPyWS (pstrip s)] at hx
  cases hps : (pstrip s).getLast? with
  | none => rw [hps] at hx; simp at hx
  | some c =>
    rw [hps] at hx
    simp only [Option.map_some'] at hx
    have hc : isPyWS c = false := pstrip_last_not_ws s c hps
    rw [hc] at hx
    simp only [Bool.false_eq_true, if_false] at hx
    obtain rfl : c = x := by injection hx
    exact hc

/-- C2 counterexample: the basic variant's `normalize_text` does not
preserve paragraph breaks: it collapses every whitespace run, including the
three line breaks of `"a\n\n\nb"`, to a single space, so its output
contains no newline at all, while the advanced variant keeps one blank
line. -/
theorem c2_counterexample :
    clean_text_basic (some (("a\n\n\nb").toList)) = ("a b").toList ∧
    '\n' ∉ clean_text_basic (some (("a\n\n\nb").toList)) ∧
    clean_text_advanced (some (("a\n\n\nb").toList)) = ("a\n\nb").toList := by
  decide

/-- C2 amended: the advanced variant's `normalize_text` collapses runs of
horizontal whitespace to a single space (its output has no tab and no two
adjacent horizontal-whitespace characters), collapses 3+ consecutive line
breaks to exactly one blank line (its output never has three consecutive
newlines, while a plain paragraph break survives unchanged), escapes `&`,
`<`, `>` by entity substitution, and trims leading and trailing whitespace;
the basic variant instead collapses EVERY whitespace run, including line
breaks, to a single space (every whitespace character of its output is a
single space with no two adjacent), escapes identically, and trims; both
variants return the empty string for absent (`None` or empty) input rather
than raising an error. -/
theorem c2_amended (s : List Char) :
    (clean_text_advanced none = [] ∧ clean_text_advanced (some []) = [] ∧
      clean_text_basic none = [] ∧ clean_text_basic (some []) = []) ∧
    '\t' ∉ clean_text_advanced (some s) ∧
    noPairP isHT (clean_text_advanced (some s)) = true ∧
    noTripleNl (clean_text_advanced (some s)) = true ∧
    pstrip (clean_text_advanced (some s)) = clean_text_advanced (some s) ∧
    noLtGt (clean_text_advanced (some s)) = true ∧
    ampOk (clean_text_advanced (some s)) = true ∧
    (∀ c ∈ clean_text_basic (some s), isPyWS c = true → c = ' ') ∧
    noPairP isPyWS (clean_text_basic (some s)) = true ∧
    pstrip (clean_text_basic (some s)) = clean_text_basic (some s) ∧
    noLtGt (clean_text_basic (some s)) = true ∧
    ampOk (clean_text_basic (some s)) = true ∧
    clean_text_advanced (some (("a \t b").toList)) = ("a b").toList ∧
    clean_text_advanced (some (("a\n\n\n\nb").toList)) = ("a\n\nb").toList ∧
    clean_text_advanced (some (("a\n\nb").toList)) = ("a\n\nb").toList ∧
    clean_text_advanced (some (("a<b & c>d").toList)) =
      ("a&lt;b &amp; c&gt;d").toList := by
  by_cases hs : s.isEmpty
  · have hout : clean_text_advanced (some s) = [] := by simp [clean_text_advanced, hs]
    have houtb : clean_text_basic (some s) = [] := by simp [clean_text_basic, hs]
    rw [hout, houtb]
    exact ⟨⟨rfl, rfl, rfl, rfl⟩, by simp, rfl, rfl, rfl, rfl, rfl, by simp, rfl, rfl,
      rfl, rfl, by decide, by decide, by decide, by decide⟩
  · have houtA : clean_text_advanced (some s) =
        pstrip (escapeSpecials (subNl (collapseRuns isHT s))) := by
      rw [show clean_text_advanced (some s) =
          (if s.isEmpty then []
           else pstrip (escapeSpecials (subNl (collapseRuns isHT s)))) from rfl]
      rw [if_neg hs]
    have houtB : clean_text_basic (some s) =
        escapeSpecials (collapseRuns isPyWS (pstrip s)) := by
      rw [show clean_text_basic (some s) =
          (if s.isEmpty then []
           else escapeSpecials (collapseRuns isPyWS (pstrip s))) from rfl]
      rw [if_neg hs]
    rw [houtA, houtB]
    have hnpA : noPairP isHT (subNl (collapseRuns isHT s)) = true := by
      rw [show subNl (collapseRuns isHT s) =
          subNlGo (collapseRuns isHT s).length (collapseRuns isHT s) from rfl]
      exact subNlGo_noPair isHT (by decide) _ _ le_rfl (collapseRuns_noPair isHT s)
    refine ⟨⟨rfl, rfl, rfl, rfl⟩, ?_, ?_, ?_, pstrip_idem _, ?_, ?_, ?_, ?_, ?_, ?_,
      ?_, by decide, by decide, by decide, by decide⟩
    · intro hm
      have hm2 := mem_pstrip _ _ hm
      rcases escapeSpecials_mem _ _ hm2 with h | h | h | h
      · rcases subNl_mem _ _ h with h' | h'
        · exact absurd (collapseRuns_memP isHT s '\t' h' (by decide)) (by decide)
        · exact absurd h' (by decide)
      · exact absurd h (by decide)
      · exact absurd h (by decide)
      · exact absurd h (by decide)
    · exact noPairP_pstrip isHT _
        (escapeSpecials_noPair isHT _ (by decide) (by decide) (by decide) hnpA)
    · exact noTripleNl_pstrip _ (escapeSpecials_noTriple _ (subNl_noTriple _))
    · exact noLtGt_pstrip _ (escapeSpecials_ok _).1
    · exact ampOk_pstrip _ (escapeSpecials_ok _).2
    · intro c hm hws
      rcases escapeSpecials_mem _ _ hm with h | h | h | h
      · exact collapseRuns_memP isPyWS (pstrip s) c h hws
      · exact absurd hws (by
          have hf : isPyWS c = false := by fin_cases h <;> decide
          simp [hf])
      · exact absurd hws (by
          have hf : isPyWS c = false := by fin_cases h <;> decide
          simp [hf])
      · exact absurd hws (by
          have hf : isPyWS c = false := by fin_cases h <;> decide
          simp [hf])
    · exact escapeSpecials_noPair isPyWS _ (by decide) (by decide) (by decide)
        (collapseRuns_noPair isPyWS (pstrip s))
    · rw [show pstrip (escapeSpecials (collapseRuns isPyWS (pstrip s))) =
          rstrip (lstrip (escapeSpecials (collapseRuns isPyWS (pstrip s)))) from rfl]
      rw [lstrip_eq_self _ (escapeSpecials_head_not_ws _ (basicU_head_not_ws s))]
      exact rstrip_eq_self _ (escapeSpecials_last_not_ws _ (basicU_last_not_ws s))
    · exact (escapeSpecials_ok _).1
    · exact (escapeSpecials_ok _).2
